import Mathlib

/-!
# circular_buffer: a shallow embedding of `circular_buffer_impl.h` and `details.h`

The C++ container keeps raw pointers into one allocated region.  Here a pointer
is `none` (nullptr) or `some k`: the address `k` slots past the base of the
region it was derived from.  The region itself is the list `mem`; a slot holds
`none` while no object is constructed in it.  Every operation that the C++
standard leaves undefined (access through nullptr, access outside the region,
a failed `assert`, a loop that never ends) is an explicit `Fault`.
-/

namespace circular_buffer

/-- What can go wrong in an operation of the container. -/
inductive Fault where
  /-- a member of the buffer is read through a null `buff_` of an iterator -/
  | null_buffer
  /-- nullptr is dereferenced, or moved by a non-zero amount -/
  | null_pointer
  /-- a slot outside the allocated region is accessed -/
  | out_of_range
  /-- a slot that holds no constructed object is read or destroyed -/
  | unconstructed
  /-- an `assert` fails -/
  | assertion
  /-- a loop never terminates -/
  | diverges
  deriving DecidableEq, Repr

/-- A `pointer` value: nullptr, or an offset (in slots) from the base of the region. -/
abbrev pointer := Option Int

/-- Pointer arithmetic `ptr + k`; nullptr may only be moved by 0. -/
def padd (p : pointer) (k : Int) : Except Fault pointer :=
  match p with
  | some a => .ok (some (a + k))
  | none => if k = 0 then .ok none else .error .null_pointer

/-- Pointer difference `p - q`; both null gives 0, one null is a fault. -/
def pdiff (p q : pointer) : Except Fault Int :=
  match p, q with
  | some a, some b => .ok (a - b)
  | none, none => .ok 0
  | _, _ => .error .null_pointer

/-- Reading `*p`: the object constructed in slot `p`. -/
def load {α : Type} (mem : List (Option α)) (p : pointer) : Except Fault α :=
  match p with
  | none => .error .null_pointer
  | some a =>
    if 0 ≤ a ∧ a < mem.length then
      match mem.get? a.toNat with
      | some (some v) => .ok v
      | _ => .error .unconstructed
    else .error .out_of_range

/-- Embeds `allocator_.construct(p, v)` and `*p = v`: store `v` in the slot `p`. -/
def construct {α : Type} (mem : List (Option α)) (p : pointer) (v : α) :
    Except Fault (List (Option α)) :=
  match p with
  | none => .error .null_pointer
  | some a =>
    if 0 ≤ a ∧ a < mem.length then .ok (mem.set a.toNat (some v))
    else .error .out_of_range

/-- Embeds `allocator_.destroy(p)`: end the lifetime of the object in slot `p`. -/
def destroy_at {α : Type} (mem : List (Option α)) (p : pointer) :
    Except Fault (List (Option α)) :=
  match p with
  | none => .error .null_pointer
  | some a =>
    if 0 ≤ a ∧ a < mem.length then
      match mem.get? a.toNat with
      | some (some _) => .ok (mem.set a.toNat none)
      | _ => .error .unconstructed
    else .error .out_of_range

end circular_buffer

/-- The fields of `circular_buffer<T>` (`begin_` is a macro for `buffer_`),
with `mem`, the contents of the region `buffer_` points to. -/
structure circular_buffer (α : Type) where
  size_ : Nat
  capacity_ : Nat
  buffer_ : circular_buffer.pointer
  end_ : circular_buffer.pointer
  first_ : circular_buffer.pointer
  last_ : circular_buffer.pointer
  mem : List (Option α)
  deriving DecidableEq, Repr

namespace circular_buffer

variable {α : Type}

/-- Embeds `allocate(count)`: nullptr for `count == 0`, else a fresh region of
`count` unconstructed slots. -/
def allocate (count : Nat) : pointer × List (Option α) :=
  if count = 0 then (none, []) else (some 0, List.replicate count none)

/-- Embeds `initialize_buffer(cb_capacity)`: `buffer_`, `end_` and the region. -/
def initialize_buffer (cb_capacity : Nat) : Except Fault (pointer × pointer × List (Option α)) := do
  let r : pointer × List (Option α) := allocate cb_capacity
  let e ← padd r.1 cb_capacity
  pure (r.1, e, r.2)

/-- Embeds `circular_buffer(capacity)`. -/
def create (capacity : Nat) : Except Fault (circular_buffer α) := do
  let r ← initialize_buffer capacity
  pure { size_ := 0, capacity_ := capacity, buffer_ := r.1, end_ := r.2.1,
         first_ := r.1, last_ := r.1, mem := r.2.2 }

/-- Embeds `next(ptr)`: `if (++ptr == end_) ptr = buffer_;`. -/
def next (b : circular_buffer α) (ptr : pointer) : Except Fault pointer := do
  let p ← padd ptr 1
  if p = b.end_ then pure b.buffer_ else pure p

/-- Embeds `prev(ptr)`: `if (ptr == buffer_) ptr = end_; --ptr;`. -/
def prev (b : circular_buffer α) (ptr : pointer) : Except Fault pointer :=
  padd (if ptr = b.buffer_ then b.end_ else ptr) (-1)

/-- Embeds `incr(ptr, delta)`: `ptr += delta < (end_ - ptr) ? delta : delta - capacity_;`
(the unsigned wrap of `delta - capacity_` cancels in the address). -/
def incr (b : circular_buffer α) (ptr : pointer) (delta : Int) : Except Fault pointer := do
  let room ← pdiff b.end_ ptr
  padd ptr (if delta < room then delta else delta - b.capacity_)

/-- Embeds `decr(ptr, delta)`: `ptr -= delta > (ptr - buffer_) ? delta - capacity_ : delta;`. -/
def decr (b : circular_buffer α) (ptr : pointer) (delta : Int) : Except Fault pointer := do
  let used ← pdiff ptr b.buffer_
  padd ptr (-(if delta > used then delta - b.capacity_ else delta))

/-- Embeds `push_back(item)`. -/
def push_back (b : circular_buffer α) (item : α) : Except Fault (circular_buffer α) :=
  if b.capacity_ = 0 then pure b else do
    let mem ← construct b.mem b.last_ item
    let last ← next b b.last_
    if b.capacity_ = b.size_ then
      pure { b with mem := mem, last_ := last, first_ := last }
    else
      pure { b with mem := mem, last_ := last, size_ := b.size_ + 1 }

/-- Embeds `push_front(item)`. -/
def push_front (b : circular_buffer α) (item : α) : Except Fault (circular_buffer α) :=
  if b.capacity_ = 0 then pure b else do
    let first ← prev b b.first_
    let mem ← construct b.mem first item
    if b.capacity_ = b.size_ then
      pure { b with mem := mem, first_ := first, last_ := first }
    else
      pure { b with mem := mem, first_ := first, size_ := b.size_ + 1 }

/-- Embeds `pop_back()`. -/
def pop_back (b : circular_buffer α) : Except Fault (circular_buffer α) :=
  if b.size_ = 0 then .error .assertion else do
    let last ← prev b b.last_
    let mem ← destroy_at b.mem last
    pure { b with mem := mem, last_ := last, size_ := b.size_ - 1 }

/-- Embeds `pop_front()`. -/
def pop_front (b : circular_buffer α) : Except Fault (circular_buffer α) :=
  if b.size_ = 0 then .error .assertion else do
    let mem ← destroy_at b.mem b.first_
    let first ← next b b.first_
    pure { b with mem := mem, first_ := first, size_ := b.size_ - 1 }

/-- Embeds `operator[](delta)`, the spec's `element_at`: no bounds check. -/
def element_at (b : circular_buffer α) (delta : Nat) : Except Fault α := do
  let ptr ← incr b b.first_ delta
  load b.mem ptr

/-- Read `element_at i, element_at (i+1), ...`, `n` of them. -/
def collect (f : Nat → Except Fault α) : Nat → Nat → Except Fault (List α)
  | _, 0 => .ok []
  | i, n + 1 =>
    match f i with
    | .error e => .error e
    | .ok x =>
      match collect f (i + 1) n with
      | .error e => .error e
      | .ok xs => .ok (x :: xs)

/-- The logical contents: `element_at(0) .. element_at(size - 1)`. -/
def contents (b : circular_buffer α) : Except Fault (List α) :=
  collect (element_at b) 0 b.size_

/-- Embeds `size()`. -/
def size (b : circular_buffer α) : Nat := b.size_

/-- Embeds `capacity()`. -/
def capacity (b : circular_buffer α) : Nat := b.capacity_

/-- The loop of `destroy()`: `for (it = 0; it < size_; ++it, next(first_))`
destroying the object at `first_`. -/
def destroy_loop : Nat → circular_buffer α → Except Fault (circular_buffer α)
  | 0, b => .ok b
  | n + 1, b =>
    match destroy_at b.mem b.first_ with
    | .error e => .error e
    | .ok mem =>
      match next b b.first_ with
      | .error e => .error e
      | .ok first => destroy_loop n { b with mem := mem, first_ := first }

/-- Embeds `destroy()`: destroy the `size_` live objects, then `deallocate(buffer_, capacity_)`. -/
def destroy (b : circular_buffer α) : Except Fault (circular_buffer α) := do
  let d ← destroy_loop b.size_ b
  pure (if d.capacity_ = 0 then d else { d with mem := [] })

/-- Embeds `reset(new_buffer, new_last, new_capacity)`; `newmem` is the region
`new_buffer` points to.  `size_ = new_last - new_buffer` converts a
`difference_type` to the 64-bit unsigned `size_type`. -/
def reset (b : circular_buffer α) (new_buffer : pointer) (newmem : List (Option α))
    (new_last : pointer) (new_capacity : Nat) : Except Fault (circular_buffer α) := do
  let _ ← destroy b
  let d ← pdiff new_last new_buffer
  let e ← padd new_buffer new_capacity
  pure { size_ := (d % 2 ^ 64).toNat, capacity_ := new_capacity, buffer_ := new_buffer,
         end_ := e, first_ := new_buffer,
         last_ := if new_last = e then new_buffer else new_last, mem := newmem }

/-- Embeds `swap(buff)`, statement by statement; the region travels with `buffer_`,
and `begin_` is the macro for `buffer_`.  Returns `(*this, buff)`. -/
def swap (self buff : circular_buffer α) : circular_buffer α × circular_buffer α :=
  -- std::swap(buffer_, buff.buffer_);
  let s1 := { self with buffer_ := buff.buffer_, mem := buff.mem }
  let b1 := { buff with buffer_ := self.buffer_, mem := self.mem }
  -- std::swap(first_, buff.last_);
  let s2 := { s1 with first_ := b1.last_ }
  let b2 := { b1 with last_ := s1.first_ }
  -- std::swap(last_, buff.last_);
  let s3 := { s2 with last_ := b2.last_ }
  let b3 := { b2 with last_ := s2.last_ }
  -- std::swap(size_, buff.size_);
  let s4 := { s3 with size_ := b3.size_ }
  let b4 := { b3 with size_ := s3.size_ }
  -- std::swap(capacity_, buff.capacity_);
  let s5 := { s4 with capacity_ := b4.capacity_ }
  let b5 := { b4 with capacity_ := s4.capacity_ }
  -- std::swap(begin_, buff.begin_);
  let s6 := { s5 with buffer_ := b5.buffer_, mem := b5.mem }
  let b6 := { b5 with buffer_ := s5.buffer_, mem := s5.mem }
  -- std::swap(end_, buff.end_);
  let s7 := { s6 with end_ := b6.end_ }
  let b7 := { b6 with end_ := s6.end_ }
  (s7, b7)

/-- Embeds `circular_buffer(self_rvalue cb)`: every member starts as nullptr (0 for
the two counters), then `cb.swap(*this)`.  Returns `(new buffer, cb afterwards)`. -/
def move_of (cb : circular_buffer α) : circular_buffer α × circular_buffer α :=
  let fresh : circular_buffer α :=
    { size_ := 0, capacity_ := 0, buffer_ := none, end_ := none,
      first_ := none, last_ := none, mem := [] }
  let r := swap cb fresh
  (r.2, r.1)

/-- The loop of the copy constructor:
`for (; it != cb.last_; cb.next(it), next(it_)) *it_ = *it;`.
A ring of `capacity_` slots is walked once in `capacity_` steps, so a run
that needs more never ends. -/
def copy_loop (cb self : circular_buffer α) :
    Nat → pointer → pointer → List (Option α) → Except Fault (pointer × List (Option α))
  | 0, _, _, _ => .error .diverges
  | fuel + 1, it, it_, mem =>
    if it = cb.last_ then .ok (it_, mem)
    else
      match load cb.mem it with
      | .error e => .error e
      | .ok v =>
        match construct mem it_ v with
        | .error e => .error e
        | .ok mem1 =>
          match next cb it with
          | .error e => .error e
          | .ok it1 =>
            match next self it_ with
            | .error e => .error e
            | .ok it_1 => copy_loop cb self fuel it1 it_1 mem1

/-- Embeds `circular_buffer(self_const_reference cb)`. -/
def copy_of (cb : circular_buffer α) : Except Fault (circular_buffer α) := do
  let r ← initialize_buffer cb.capacity_
  let self : circular_buffer α :=
    { size_ := cb.size_, capacity_ := cb.capacity_, buffer_ := r.1, end_ := r.2.1,
      first_ := r.1, last_ := r.1, mem := r.2.2 }
  let c ← copy_loop cb self (cb.capacity_ + 1) cb.first_ self.first_ self.mem
  pure { self with last_ := c.1, mem := c.2 }

end circular_buffer

namespace circular_buffer_details

open circular_buffer (Fault pointer padd pdiff load construct)

/-- Embeds `iterator<Buffer, Traits>`: `buff_` points to the buffer (`none` is
nullptr), `ptr_` is a slot of it, nullptr for the end sentinel. -/
structure iterator (α : Type) where
  buff_ : Option (circular_buffer α)
  ptr_ : pointer
  deriving DecidableEq, Repr

variable {α : Type}

/-- Embeds `iterator()`. -/
def iterator.null : iterator α := { buff_ := none, ptr_ := none }

/-- Embeds `operator*`: `*ptr_`, read in the region of the iterator's buffer. -/
def iterator.deref (it : iterator α) : Except Fault α :=
  match it.ptr_ with
  | none => .error .null_pointer
  | some p =>
    match it.buff_ with
    | none => .error .null_buffer
    | some b => load b.mem (some p)

/-- Embeds `operator++`: `buff_->next(ptr_); if (ptr_ == buff_->last_) ptr_ = nullptr;`. -/
def iterator.inc (it : iterator α) : Except Fault (iterator α) :=
  match it.buff_ with
  | none => .error .null_buffer
  | some b =>
    match b.next it.ptr_ with
    | .error e => .error e
    | .ok p => .ok { it with ptr_ := if p = b.last_ then none else p }

/-- Embeds `operator--`: `if (ptr_ == nullptr) ptr_ = buff_->last_; buff_->prev(ptr_);`. -/
def iterator.dec (it : iterator α) : Except Fault (iterator α) :=
  match it.buff_ with
  | none => .error .null_buffer
  | some b =>
    match b.prev (if it.ptr_ = none then b.last_ else it.ptr_) with
    | .error e => .error e
    | .ok p => .ok { it with ptr_ := p }

/-- Embeds `operator+=(delta)`. -/
def iterator.add_assign (it : iterator α) (delta : Int) : Except Fault (iterator α) :=
  match it.buff_ with
  | none => .error .null_buffer
  | some b =>
    match (if delta ≥ 0 then b.incr it.ptr_ delta else b.decr it.ptr_ (-delta)) with
    | .error e => .error e
    | .ok p => .ok { it with ptr_ := if p = b.last_ then none else p }

/-- Embeds `operator+(delta)`: `iterator(*this) += delta`. -/
def iterator.add (it : iterator α) (delta : Int) : Except Fault (iterator α) :=
  it.add_assign delta

/-- Embeds `operator==`: the raw slot positions match. -/
def iterator.eq (a b : iterator α) : Bool := decide (a.ptr_ = b.ptr_)

/-- Embeds `operator!=`. -/
def iterator.ne (a b : iterator α) : Bool := !(a.eq b)

/-- Embeds `copy(begin_, end_, buff_, allocator_)` of details.h:
`for (; begin_ != end_; ++begin_, ++buff_) construct(buff_, *begin_)`, writing
into the region `newmem`.  Every pass stores into the next slot of `newmem`,
so a run survives at most `newmem.length` passes: fuel above that never runs out. -/
def copy : Nat → iterator α → iterator α → pointer → List (Option α) →
    Except Fault (pointer × List (Option α))
  | 0, _, _, _, _ => .error .diverges
  | fuel + 1, begin_, end_, buff_, newmem =>
    if begin_.ne end_ then
      match begin_.deref with
      | .error e => .error e
      | .ok v =>
        match construct newmem buff_ v with
        | .error e => .error e
        | .ok newmem1 =>
          match begin_.inc with
          | .error e => .error e
          | .ok begin1 =>
            match padd buff_ 1 with
            | .error e => .error e
            | .ok buff1 => copy fuel begin1 end_ buff1 newmem1
    else .ok (buff_, newmem)

end circular_buffer_details

namespace circular_buffer

open circular_buffer_details

variable {α : Type}

/-- Embeds `begin()`. -/
def begin (b : circular_buffer α) : iterator α :=
  if b.size_ = 0 then iterator.null else { buff_ := some b, ptr_ := b.first_ }

/-- Embeds `end()`. -/
def end_iter (b : circular_buffer α) : iterator α :=
  if b.size_ = 0 then iterator.null else { buff_ := some b, ptr_ := none }

/-- Embeds `set_capacity(new_capacity)`. -/
def set_capacity (b : circular_buffer α) (new_capacity : Nat) :
    Except Fault (circular_buffer α) :=
  if new_capacity = b.capacity_ then pure b else do
    let r : pointer × List (Option α) := allocate new_capacity
    let bg := b.begin
    let e ← bg.add (min b.size_ new_capacity : Nat)
    let c ← copy (new_capacity + 1) bg e r.1 r.2
    reset b r.1 c.2 c.1 new_capacity

end circular_buffer

namespace circular_buffer

open circular_buffer_details

variable {α : Type}

deriving instance DecidableEq for Except

/-- The invariants of the data model: the region has `capacity_` slots,
`size_ ≤ capacity_`, a zero-capacity buffer has no storage and null cursors, and
otherwise `first_` is a slot `f` of the region, `last_` is slot
`(f + size_) % capacity_`, and the `size_` slots from `f` on hold objects. -/
def wf (b : circular_buffer α) : Prop :=
  b.mem.length = b.capacity_ ∧ b.size_ ≤ b.capacity_ ∧
  (b.capacity_ = 0 →
    b.buffer_ = none ∧ b.end_ = none ∧ b.first_ = none ∧ b.last_ = none) ∧
  (0 < b.capacity_ →
    b.buffer_ = some 0 ∧ b.end_ = some (b.capacity_ : Int) ∧
    ∃ f : Nat, f < b.capacity_ ∧ b.first_ = some (f : Int) ∧
      b.last_ = some (((f + b.size_) % b.capacity_ : Nat) : Int) ∧
      ∀ i, i < b.size_ → ∃ v, b.mem[(f + i) % b.capacity_]? = some (some v))

/-- The buffer with `s` live elements from slot `f` on, in a region `mem`
of `c > 0` slots. -/
def ring (s c f : Nat) (mem : List (Option α)) : circular_buffer α :=
  { size_ := s, capacity_ := c, buffer_ := some 0, end_ := some (c : Int),
    first_ := some (f : Int), last_ := some (((f + s) % c : Nat) : Int), mem := mem }

/-- Calls `push_back` for every element of a list, in order. -/
def push_back_all (b : circular_buffer α) : List α → Except Fault (circular_buffer α)
  | [] => .ok b
  | x :: xs =>
    match push_back b x with
    | .error e => .error e
    | .ok b1 => push_back_all b1 xs

/-- Calls `push_front` for every element of a list, in order. -/
def push_front_all (b : circular_buffer α) : List α → Except Fault (circular_buffer α)
  | [] => .ok b
  | x :: xs =>
    match push_front b x with
    | .error e => .error e
    | .ok b1 => push_front_all b1 xs

/-- The zero-capacity empty state: no storage, every pointer null. -/
def empty_zero : circular_buffer α :=
  { size_ := 0, capacity_ := 0, buffer_ := none, end_ := none,
    first_ := none, last_ := none, mem := [] }

/-- The `ptr_` of the iterator at logical position `k` of a ring of `s` live
elements from slot `f` on: slot `(f + k) % c`, and nullptr at position `s`. -/
def pos_ptr (s c f k : Nat) : pointer :=
  if k = s then none else some (((f + k) % c : Nat) : Int)

/-- Applies `operator++` to an iterator `k` times. -/
def inc_times : Nat → iterator α → Except Fault (iterator α)
  | 0, it => .ok it
  | k + 1, it =>
    match it.inc with
    | .error e => .error e
    | .ok it1 => inc_times k it1

/-- Embeds `front()`. -/
def front (b : circular_buffer α) : Except Fault α :=
  if b.size_ = 0 then .error .assertion else load b.mem b.first_

/-- Embeds `back()`: `pointer ptr = last_; prev(ptr); return *ptr;`. -/
def back (b : circular_buffer α) : Except Fault α :=
  if b.size_ = 0 then .error .assertion else
    match prev b b.last_ with
    | .error e => .error e
    | .ok ptr => load b.mem ptr

/-- Applies a pointer step (`next` or `prev`) `n` times. -/
def step_times (step : pointer → Except Fault pointer) : Nat → pointer → Except Fault pointer
  | 0, p => .ok p
  | n + 1, p =>
    match step p with
    | .error e => .error e
    | .ok q => step_times step n q

/-- One call of the mutating interface. -/
inductive call (α : Type) where
  | push_back (item : α)
  | push_front (item : α)
  | pop_back
  | pop_front
  deriving DecidableEq, Repr

/-- Performs one call on a buffer. -/
def apply_call (b : circular_buffer α) : call α → Except Fault (circular_buffer α)
  | .push_back x => push_back b x
  | .push_front x => push_front b x
  | .pop_back => pop_back b
  | .pop_front => pop_front b

/-- Performs a sequence of calls, first to last. -/
def run_calls (b : circular_buffer α) : List (call α) → Except Fault (circular_buffer α)
  | [] => .ok b
  | k :: ks =>
    match apply_call b k with
    | .error e => .error e
    | .ok b1 => run_calls b1 ks

/-- The precondition of one call: a pop needs `size != 0`. -/
def call_allowed (b : circular_buffer α) : call α → Bool
  | .push_back _ => true
  | .push_front _ => true
  | .pop_back => decide (b.size_ ≠ 0)
  | .pop_front => decide (b.size_ ≠ 0)

/-- Every pop of the sequence is applied to a buffer with `size != 0`. -/
def calls_allowed (b : circular_buffer α) : List (call α) → Bool
  | [] => true
  | k :: ks =>
    call_allowed b k &&
      match apply_call b k with
      | .error _ => true
      | .ok b1 => calls_allowed b1 ks

/-- The iterator at logical position `i` of a buffer: slot
`(first_ + i) mod capacity_` for `i < size_`, the end sentinel for `i = size_`. -/
def at_position (b : circular_buffer α) (i : Nat) : iterator α :=
  { buff_ := some b,
    ptr_ := if i = b.size_ then none
            else b.first_.map (fun f => (f + (i : Int)) % (b.capacity_ : Int)) }

end circular_buffer

namespace circular_buffer_details

open circular_buffer (Fault pointer padd pdiff)

variable {α : Type}

/-- Pointer comparison `p < q`; comparing nullptr with a slot is a fault. -/
def plt (p q : pointer) : Except Fault Bool :=
  match p, q with
  | some a, some b => .ok (decide (a < b))
  | none, none => .ok false
  | _, _ => .error .null_pointer

/-- Embeds `linearize_pointer(it)`, called on the iterator `self`:
`it.ptr_ == 0 ? buff_->buffer_ + buff_->size_ : (it.ptr_ < buff_->first_ ?
it.ptr_ + (buff_->end_ - buff_->first_) : buff_->buffer_ + (it.ptr_ - buff_->first_))`. -/
def iterator.linearize_pointer (self it : iterator α) : Except Fault pointer :=
  match self.buff_ with
  | none => .error .null_buffer
  | some b =>
    if it.ptr_ = none then padd b.buffer_ (b.size_ : Int)
    else
      match plt it.ptr_ b.first_ with
      | .error e => .error e
      | .ok true =>
        match pdiff b.end_ b.first_ with
        | .error e => .error e
        | .ok d => padd it.ptr_ d
      | .ok false =>
        match pdiff it.ptr_ b.first_ with
        | .error e => .error e
        | .ok d => padd b.buffer_ d

/-- Embeds `operator-(iterator& it)`:
`linearize_pointer(*this) - linearize_pointer(it)`. -/
def iterator.sub (self it : iterator α) : Except Fault Int :=
  match self.linearize_pointer self with
  | .error e => .error e
  | .ok a =>
    match self.linearize_pointer it with
    | .error e => .error e
    | .ok b => pdiff a b

/-- Embeds `operator<`: `linearize_pointer(*this) < linearize_pointer(it)`. -/
def iterator.lt (self it : iterator α) : Except Fault Bool :=
  match self.linearize_pointer self with
  | .error e => .error e
  | .ok a =>
    match self.linearize_pointer it with
    | .error e => .error e
    | .ok b => plt a b

/-- Embeds `operator>`: `linearize_pointer(*this) > linearize_pointer(it)`. -/
def iterator.gt (self it : iterator α) : Except Fault Bool :=
  match self.linearize_pointer self with
  | .error e => .error e
  | .ok a =>
    match self.linearize_pointer it with
    | .error e => .error e
    | .ok b => plt b a

/-- Embeds `operator<=`: `linearize_pointer(*this) < linearize_pointer(it)`. -/
def iterator.le (self it : iterator α) : Except Fault Bool :=
  match self.linearize_pointer self with
  | .error e => .error e
  | .ok a =>
    match self.linearize_pointer it with
    | .error e => .error e
    | .ok b => plt a b

end circular_buffer_details

namespace circular_buffer
open circular_buffer_details
variable {α : Type}

/-! ## Arithmetic of slot positions -/

theorem mod_wrap {c k : Nat} (h : k < 2 * c) : k % c = if k < c then k else k - c := by
  split
  · exact Nat.mod_eq_of_lt ‹_›
  · rw [Nat.mod_eq_sub_mod (by omega)]; exact Nat.mod_eq_of_lt (by omega)

theorem slot_congr {c a b : Nat} (h : a = b) : a % c = b % c := by rw [h]

theorem slot_inj {c f i j : Nat} (hi : i < c) (hj : j < c)
    (h : (f + i) % c = (f + j) % c) : i = j := by
  have h1 : i % c = j % c := Nat.ModEq.add_left_cancel' f h
  rwa [Nat.mod_eq_of_lt hi, Nat.mod_eq_of_lt hj] at h1

theorem slot_eq_last_iff {c f k s : Nat} (hk : 0 < k) (hks : k ≤ s) (hs : s ≤ c) :
    (f + k) % c = (f + s) % c ↔ k = s := by
  constructor
  · intro h
    have h1 : k % c = s % c := Nat.ModEq.add_left_cancel' f h
    by_cases hsc : s = c
    · subst hsc
      rw [Nat.mod_self] at h1
      by_contra hne
      rw [Nat.mod_eq_of_lt (by omega)] at h1
      omega
    · rwa [Nat.mod_eq_of_lt (by omega), Nat.mod_eq_of_lt (by omega)] at h1
  · intro h; rw [h]

theorem slot_succ (c f k : Nat) : ((f + k) % c + 1) % c = (f + (k + 1)) % c := by
  rw [Nat.mod_add_mod]; rfl

theorem slot_pred (c f k : Nat) (hc : 0 < c) (hk : 0 < k) :
    ((f + k) % c + c - 1) % c = (f + (k - 1)) % c := by
  have : (f + k) % c + c - 1 = (f + k) % c + (c - 1) := by omega
  rw [this, Nat.mod_add_mod]
  have : f + k + (c - 1) = f + (k - 1) + c := by omega
  rw [this, Nat.add_mod_right]

/-! ## Memory and pointer steps -/

theorem load_ok_iff (mem : List (Option α)) (k : Nat) (v : α) :
    load mem (some (k : Int)) = .ok v ↔ mem[k]? = some (some v) := by
  unfold load
  by_cases hk : k < mem.length
  · have : (0:Int) ≤ k ∧ (k:Int) < mem.length := ⟨by omega, by omega⟩
    simp only [this, and_self, if_true, Int.toNat_ofNat, List.get?_eq_getElem?]
    cases h : mem[k]? with
    | none => simp
    | some o => cases o <;> simp
  · have : ¬ ((0:Int) ≤ k ∧ (k:Int) < mem.length) := by omega
    simp only [this, if_false]
    have : mem[k]? = none := List.getElem?_eq_none (by omega)
    simp [this]

theorem construct_nat (mem : List (Option α)) (k : Nat) (v : α) (hk : k < mem.length) :
    construct mem (some (k : Int)) v = .ok (mem.set k (some v)) := by
  unfold construct
  have : (0:Int) ≤ k ∧ (k:Int) < mem.length := ⟨by omega, by omega⟩
  simp only [this, and_self, if_true, Int.toNat_ofNat]

theorem destroy_at_nat (mem : List (Option α)) (k : Nat) (v : α)
    (h : mem[k]? = some (some v)) :
    destroy_at mem (some (k : Int)) = .ok (mem.set k none) := by
  unfold destroy_at
  have hk : k < mem.length := by
    by_contra hn
    rw [List.getElem?_eq_none (by omega)] at h
    cases h
  have : (0:Int) ≤ k ∧ (k:Int) < mem.length := ⟨by omega, by omega⟩
  simp only [this, and_self, if_true, Int.toNat_ofNat, List.get?_eq_getElem?, h]

theorem incr_nat (b : circular_buffer α) (c f i : Nat) (hc : b.capacity_ = c)
    (he : b.end_ = some (c : Int)) (hf : f < c) (hi : i ≤ c) :
    incr b (some (f : Int)) (i : Int) = .ok (some (((f + i) % c : Nat) : Int)) := by
  unfold incr pdiff padd
  simp only [he, hc, bind, Except.bind]
  rw [mod_wrap (by omega)]
  split_ifs <;> simp <;> omega

theorem next_nat (b : circular_buffer α) (c p : Nat) (hb : b.buffer_ = some 0)
    (he : b.end_ = some (c : Int)) (hp : p < c) :
    next b (some (p : Int)) = .ok (some (((p + 1) % c : Nat) : Int)) := by
  unfold next padd
  simp only [he, hb, bind, Except.bind, pure, Except.pure, Option.some.injEq]
  rw [mod_wrap (by omega)]
  split_ifs <;> simp only [Except.ok.injEq, Option.some.injEq] <;> omega

theorem prev_nat (b : circular_buffer α) (c p : Nat) (hb : b.buffer_ = some 0)
    (he : b.end_ = some (c : Int)) (hp : p < c) :
    prev b (some (p : Int)) = .ok (some (((p + c - 1) % c : Nat) : Int)) := by
  unfold prev padd
  simp only [he, hb, Option.some.injEq]
  rw [mod_wrap (by omega)]
  split_ifs <;> simp only [Except.ok.injEq, Option.some.injEq] <;> omega

end circular_buffer
namespace circular_buffer
open circular_buffer_details
variable {α : Type}

/-! ## Logical contents -/

theorem collect_ok_iff (g : Nat → Except Fault α) (n i : Nat) (xs : List α) :
    collect g i n = .ok xs ↔
      xs.length = n ∧ ∀ j (h : j < xs.length), g (i + j) = .ok xs[j] := by
  induction n generalizing i xs with
  | zero =>
    simp only [collect, Except.ok.injEq]
    constructor
    · intro h; subst h; simp
    · rintro ⟨h, -⟩; exact (List.length_eq_zero.mp h).symm
  | succ n ih =>
    simp only [collect]
    cases hg : g i with
    | error e =>
      simp only [false_iff, not_and, reduceCtorEq]
      intro hlen hall
      cases xs with
      | nil => simp at hlen
      | cons x xs =>
        have := hall 0 (by simp)
        simp [hg] at this
    | ok x =>
      cases hc : collect g (i + 1) n with
      | error e =>
        simp only [false_iff, not_and, reduceCtorEq]
        intro hlen hall
        cases xs with
        | nil => simp at hlen
        | cons y ys =>
          have h2 : collect g (i + 1) n = .ok ys := by
            rw [ih]
            refine ⟨by simpa using hlen, fun j hj => ?_⟩
            have := hall (j + 1) (by simpa using hj)
            simpa [Nat.add_assoc, Nat.add_comm 1 j] using this
          rw [hc] at h2; cases h2
      | ok ys =>
        rw [ih] at hc
        simp only [Except.ok.injEq]
        constructor
        · intro h; subst h
          refine ⟨by simp [hc.1], fun j hj => ?_⟩
          cases j with
          | zero => simpa using hg
          | succ j =>
            have := hc.2 j (by simpa using hj)
            simpa [Nat.add_assoc, Nat.add_comm 1 j] using this
        · rintro ⟨hlen, hall⟩
          cases xs with
          | nil => simp at hlen
          | cons z zs =>
            have h0 := hall 0 (by simp)
            simp only [Nat.add_zero, List.getElem_cons_zero, hg, Except.ok.injEq] at h0
            subst h0
            congr 1
            apply List.ext_getElem
            · simp at hlen; omega
            · intro j h1 h2
              have a := hall (j + 1) (by simpa using h2)
              have b := hc.2 j h1
              simp only [List.getElem_cons_succ] at a
              rw [show i + (j + 1) = i + 1 + j by omega, b] at a
              exact Except.ok.inj a

theorem collect_exists (g : Nat → Except Fault α) (n i : Nat)
    (h : ∀ j, j < n → ∃ v, g (i + j) = .ok v) : ∃ xs, collect g i n = .ok xs := by
  induction n generalizing i with
  | zero => exact ⟨[], rfl⟩
  | succ n ih =>
    obtain ⟨v, hv⟩ := h 0 (by omega)
    obtain ⟨xs, hxs⟩ := ih (i + 1) (fun j hj => by
      obtain ⟨w, hw⟩ := h (j + 1) (by omega)
      exact ⟨w, by rw [show i + 1 + j = i + (j + 1) by omega]; exact hw⟩)
    refine ⟨v :: xs, ?_⟩
    simp only [collect]
    rw [Nat.add_zero] at hv
    rw [hv, hxs]

theorem element_at_ring (s c f : Nat) (mem : List (Option α)) (i : Nat)
    (hf : f < c) (hi : i ≤ c) :
    element_at (ring s c f mem) i = load mem (some (((f + i) % c : Nat) : Int)) := by
  unfold element_at
  have := incr_nat (ring s c f mem) c f i rfl rfl hf hi
  simp only [ring] at this ⊢
  rw [this]; rfl

theorem contents_ring_iff (s c f : Nat) (mem : List (Option α)) (xs : List α)
    (hf : f < c) (hs : s ≤ c) :
    contents (ring s c f mem) = .ok xs ↔
      xs.length = s ∧ ∀ j (h : j < xs.length), mem[(f + j) % c]? = some (some xs[j]) := by
  unfold contents
  rw [collect_ok_iff]
  show xs.length = s ∧ _ ↔ _
  constructor
  · rintro ⟨hl, hall⟩
    refine ⟨hl, fun j hj => ?_⟩
    have := hall j hj
    rw [Nat.zero_add, element_at_ring s c f mem j hf (by omega), load_ok_iff] at this
    exact this
  · rintro ⟨hl, hall⟩
    refine ⟨hl, fun j hj => ?_⟩
    rw [Nat.zero_add, element_at_ring s c f mem j hf (by omega), load_ok_iff]
    exact hall j hj

theorem wf_ring (s c f : Nat) (mem : List (Option α)) (hf : f < c) (hs : s ≤ c)
    (hlen : mem.length = c)
    (hlive : ∀ i, i < s → ∃ v, mem[(f + i) % c]? = some (some v)) :
    wf (ring s c f mem) := by
  refine ⟨hlen, hs, fun h0 => ?_, fun _ => ⟨rfl, rfl, f, hf, rfl, rfl, hlive⟩⟩
  simp only [ring] at h0
  omega

theorem wf_pos (b : circular_buffer α) (h : wf b) (hc : 0 < b.capacity_) :
    ∃ f, f < b.capacity_ ∧ b = ring b.size_ b.capacity_ f b.mem ∧
      b.mem.length = b.capacity_ ∧ b.size_ ≤ b.capacity_ ∧
      ∀ i, i < b.size_ → ∃ v, b.mem[(f + i) % b.capacity_]? = some (some v) := by
  obtain ⟨hlen, hs, -, hp⟩ := h
  obtain ⟨hb, he, f, hf, hfi, hla, hlive⟩ := hp hc
  refine ⟨f, hf, ?_, hlen, hs, hlive⟩
  cases b
  simp only [ring] at *
  simp [hb, he, hfi, hla]

theorem wf_zero (b : circular_buffer α) (h : wf b) (hc : b.capacity_ = 0) :
    b = { size_ := 0, capacity_ := 0, buffer_ := none, end_ := none,
          first_ := none, last_ := none, mem := [] } := by
  obtain ⟨hlen, hs, hz, -⟩ := h
  obtain ⟨hb, he, hfi, hla⟩ := hz hc
  cases b
  simp only at *
  subst hc
  simp [hb, he, hfi, hla, List.length_eq_zero.mp hlen]
  omega

theorem wf_contents (b : circular_buffer α) (h : wf b) : ∃ xs, contents b = .ok xs := by
  rcases Nat.eq_zero_or_pos b.capacity_ with hc | hc
  · rw [wf_zero b h hc]; exact ⟨[], rfl⟩
  · obtain ⟨f, hf, hb, hlen, hs, hlive⟩ := wf_pos b h hc
    rw [hb]
    apply collect_exists
    intro j hj
    obtain ⟨v, hv⟩ := hlive j hj
    refine ⟨v, ?_⟩
    rw [Nat.zero_add, element_at_ring _ _ _ _ _ hf (by simp only [ring] at hj; omega), load_ok_iff]
    exact hv

end circular_buffer
namespace circular_buffer
open circular_buffer_details
variable {α : Type}

/-! ## One step of each mutation on a well-formed ring -/

theorem push_back_ring_lt (s c f : Nat) (mem : List (Option α)) (x : α)
    (hs : s < c) (hlen : mem.length = c) :
    push_back (ring s c f mem) x = .ok (ring (s + 1) c f (mem.set ((f + s) % c) (some x))) := by
  have hc : 0 < c := by omega
  have h1 := construct_nat mem ((f + s) % c) x (by rw [hlen]; exact Nat.mod_lt _ hc)
  have h2 := next_nat (ring s c f mem) c ((f + s) % c) rfl rfl (Nat.mod_lt _ hc)
  rw [slot_succ] at h2
  unfold push_back
  simp only [ring] at h2 ⊢
  rw [if_neg (by omega), h1]
  simp only [bind, Except.bind, h2, pure, Except.pure]
  rw [if_neg (by omega)]

theorem push_back_ring_full (c f : Nat) (mem : List (Option α)) (x : α)
    (hc : 0 < c) (hf : f < c) (hlen : mem.length = c) :
    push_back (ring c c f mem) x = .ok (ring c c ((f + 1) % c) (mem.set f (some x))) := by
  have e1 : (f + c) % c = f := by rw [Nat.add_mod_right, Nat.mod_eq_of_lt hf]
  have e2 : ((f + 1) % c + c) % c = (f + 1) % c := by rw [Nat.add_mod_right, Nat.mod_mod]
  have h1 := construct_nat mem f x (by omega)
  have h2 := next_nat (ring c c f mem) c f rfl rfl hf
  unfold push_back
  simp only [ring, e1, e2] at h2 ⊢
  rw [if_neg (by omega), h1]
  simp only [bind, Except.bind, h2, pure, Except.pure, if_true]

theorem push_front_ring_lt (s c f : Nat) (mem : List (Option α)) (x : α)
    (hs : s < c) (hf : f < c) (hlen : mem.length = c) :
    push_front (ring s c f mem) x =
      .ok (ring (s + 1) c ((f + c - 1) % c) (mem.set ((f + c - 1) % c) (some x))) := by
  have hc : 0 < c := by omega
  have e : ((f + c - 1) % c + (s + 1)) % c = (f + s) % c := by
    rw [Nat.mod_add_mod, show f + c - 1 + (s + 1) = f + s + c by omega, Nat.add_mod_right]
  have h1 := prev_nat (ring s c f mem) c f rfl rfl hf
  have h2 := construct_nat mem ((f + c - 1) % c) x (by rw [hlen]; exact Nat.mod_lt _ hc)
  unfold push_front
  simp only [ring, e] at h1 ⊢
  rw [if_neg (by omega)]
  simp only [bind, Except.bind, h1, h2, pure, Except.pure]
  rw [if_neg (by omega)]

theorem push_front_ring_full (c f : Nat) (mem : List (Option α)) (x : α)
    (hc : 0 < c) (hf : f < c) (hlen : mem.length = c) :
    push_front (ring c c f mem) x =
      .ok (ring c c ((f + c - 1) % c) (mem.set ((f + c - 1) % c) (some x))) := by
  have e : ((f + c - 1) % c + c) % c = (f + c - 1) % c := by
    rw [Nat.add_mod_right, Nat.mod_mod]
  have h1 := prev_nat (ring c c f mem) c f rfl rfl hf
  have h2 := construct_nat mem ((f + c - 1) % c) x (by rw [hlen]; exact Nat.mod_lt _ hc)
  unfold push_front
  simp only [ring, e] at h1 ⊢
  rw [if_neg (by omega)]
  simp only [bind, Except.bind, h1, h2, pure, Except.pure, if_true]

theorem pop_back_ring (s c f : Nat) (mem : List (Option α)) (v : α)
    (hs : 0 < s) (hc : 0 < c) (hv : mem[(f + (s - 1)) % c]? = some (some v)) :
    pop_back (ring s c f mem) = .ok (ring (s - 1) c f (mem.set ((f + (s - 1)) % c) none)) := by
  have h1 := prev_nat (ring s c f mem) c ((f + s) % c) rfl rfl (Nat.mod_lt _ hc)
  rw [slot_pred c f s hc hs] at h1
  have h2 := destroy_at_nat mem _ v hv
  unfold pop_back
  simp only [ring] at h1 ⊢
  rw [if_neg (by omega)]
  simp only [bind, Except.bind, h1, h2, pure, Except.pure]

theorem pop_front_ring (s c f : Nat) (mem : List (Option α)) (v : α)
    (hs : 0 < s) (hf : f < c) (hv : mem[f]? = some (some v)) :
    pop_front (ring s c f mem) = .ok (ring (s - 1) c ((f + 1) % c) (mem.set f none)) := by
  have e : ((f + 1) % c + (s - 1)) % c = (f + s) % c := by
    rw [Nat.mod_add_mod]; exact slot_congr (by omega)
  have h1 := next_nat (ring s c f mem) c f rfl rfl hf
  have h2 := destroy_at_nat mem _ v hv
  unfold pop_front
  simp only [ring, e] at h1 ⊢
  rw [if_neg (by omega)]
  simp only [bind, Except.bind, h1, h2, pure, Except.pure]

end circular_buffer
namespace circular_buffer
open circular_buffer_details
variable {α : Type}

/-! ## Contents after one step -/

theorem contents_ring_iff_get (s c f : Nat) (mem : List (Option α)) (xs : List α)
    (hf : f < c) (hs : s ≤ c) :
    contents (ring s c f mem) = .ok xs ↔
      xs.length = s ∧ ∀ j, j < s → mem[(f + j) % c]? = Option.map some xs[j]? := by
  rw [contents_ring_iff s c f mem xs hf hs]
  constructor
  · rintro ⟨hl, hall⟩
    refine ⟨hl, fun j hj => ?_⟩
    rw [hall j (by omega), List.getElem?_eq_getElem (by omega)]; rfl
  · rintro ⟨hl, hall⟩
    refine ⟨hl, fun j hj => ?_⟩
    rw [hall j (by omega), List.getElem?_eq_getElem hj]; rfl

theorem wf_ring_of_contents (s c f : Nat) (mem : List (Option α)) (xs : List α)
    (hf : f < c) (hs : s ≤ c) (hlen : mem.length = c)
    (h : contents (ring s c f mem) = .ok xs) : wf (ring s c f mem) := by
  rw [contents_ring_iff s c f mem xs hf hs] at h
  exact wf_ring s c f mem hf hs hlen (fun i hi => ⟨xs[i], h.2 i (by omega)⟩)

theorem set_same (mem : List (Option α)) (k : Nat) (o : Option α) (hk : k < mem.length) :
    (mem.set k o)[k]? = some o := by
  simp [hk]

theorem set_other (mem : List (Option α)) (k j : Nat) (o : Option α) (h : k ≠ j) :
    (mem.set k o)[j]? = mem[j]? := by
  simp [h]

theorem push_back_contents_lt (b : circular_buffer α) (x : α) (xs : List α)
    (hwf : wf b) (hxs : contents b = .ok xs) (hs : b.size_ < b.capacity_) :
    ∃ b1, push_back b x = .ok b1 ∧ contents b1 = .ok (xs ++ [x]) ∧
      b1.size_ = b.size_ + 1 ∧ b1.capacity_ = b.capacity_ ∧ wf b1 := by
  obtain ⟨f, hf, hb, hlen, -, -⟩ := wf_pos b hwf (by omega)
  generalize b.size_ = s at *
  generalize b.capacity_ = c at *
  generalize b.mem = mem at *
  subst hb
  rw [contents_ring_iff_get s c f mem xs hf (by omega)] at hxs
  have hc : contents (ring (s + 1) c f (mem.set ((f + s) % c) (some x))) = .ok (xs ++ [x]) := by
    rw [contents_ring_iff_get _ _ _ _ _ hf (by omega)]
    refine ⟨by simp [hxs.1], fun j hj => ?_⟩
    by_cases hjs : j = s
    · subst hjs
      rw [set_same _ _ _ (by rw [hlen]; exact Nat.mod_lt _ (by omega))]
      rw [List.getElem?_append_right (by omega)]
      simp [hxs.1]
    · have hne : (f + s) % c ≠ (f + j) % c := fun h => hjs (slot_inj (by omega) (by omega) h).symm
      rw [set_other _ _ _ _ hne, hxs.2 j (by omega), List.getElem?_append_left (by omega)]
  refine ⟨_, push_back_ring_lt s c f mem x hs hlen, hc, rfl, rfl, ?_⟩
  exact wf_ring_of_contents _ _ _ _ _ hf (by omega) (by simp [hlen]) hc

theorem push_back_contents_full (b : circular_buffer α) (x : α) (xs : List α)
    (hwf : wf b) (hxs : contents b = .ok xs) (hc : 0 < b.capacity_)
    (hs : b.size_ = b.capacity_) :
    ∃ b1, push_back b x = .ok b1 ∧ contents b1 = .ok (xs.tail ++ [x]) ∧
      b1.size_ = b.size_ ∧ b1.capacity_ = b.capacity_ ∧ wf b1 := by
  obtain ⟨f, hf, hb, hlen, -, -⟩ := wf_pos b hwf hc
  generalize b.size_ = s at *
  generalize b.capacity_ = c at *
  generalize b.mem = mem at *
  subst hs
  subst hb
  rw [contents_ring_iff_get s s f mem xs hf (by omega)] at hxs
  have hcont : contents (ring s s ((f + 1) % s) (mem.set f (some x))) = .ok (xs.tail ++ [x]) := by
    rw [contents_ring_iff_get _ _ _ _ _ (Nat.mod_lt _ hc) (by omega)]
    refine ⟨by simp [hxs.1]; omega, fun j hj => ?_⟩
    rw [Nat.mod_add_mod, show f + 1 + j = f + (j + 1) by omega]
    by_cases hjs : j + 1 = s
    · have e : (f + (j + 1)) % s = f := by
        rw [hjs, Nat.add_mod_right, Nat.mod_eq_of_lt hf]
      rw [e, set_same _ _ _ (by omega)]
      rw [List.getElem?_append_right (by simp [hxs.1]; omega)]
      have : j - xs.tail.length = 0 := by simp [hxs.1]; omega
      rw [this]; rfl
    · have hne : f ≠ (f + (j + 1)) % s := by
        intro h
        have h2 : (f + 0) % s = (f + (j + 1)) % s := by
          rw [Nat.add_zero, Nat.mod_eq_of_lt hf]; exact h
        have := slot_inj (by omega) (by omega) h2
        omega
      rw [set_other _ _ _ _ hne, hxs.2 (j + 1) (by omega),
        List.getElem?_append_left (by simp [hxs.1]; omega)]
      simp
  refine ⟨_, push_back_ring_full s f mem x hc hf hlen, hcont, rfl, rfl, ?_⟩
  exact wf_ring_of_contents _ _ _ _ _ (Nat.mod_lt _ hc) (by omega) (by simp [hlen]) hcont

end circular_buffer
namespace circular_buffer
open circular_buffer_details
variable {α : Type}

theorem getElem?_dropLast_lt (xs : List α) (j : Nat) (h : j + 1 < xs.length) :
    xs.dropLast[j]? = xs[j]? := by
  rw [List.dropLast_eq_take, List.getElem?_take_of_lt (by omega)]

theorem push_front_contents_lt (b : circular_buffer α) (x : α) (xs : List α)
    (hwf : wf b) (hxs : contents b = .ok xs) (hs : b.size_ < b.capacity_) :
    ∃ b1, push_front b x = .ok b1 ∧ contents b1 = .ok (x :: xs) ∧
      b1.size_ = b.size_ + 1 ∧ b1.capacity_ = b.capacity_ ∧ wf b1 := by
  obtain ⟨f, hf, hb, hlen, -, -⟩ := wf_pos b hwf (by omega)
  generalize b.size_ = s at *
  generalize b.capacity_ = c at *
  generalize b.mem = mem at *
  subst hb
  have hc : 0 < c := by omega
  have hg : (f + c - 1) % c < c := Nat.mod_lt _ hc
  rw [contents_ring_iff_get s c f mem xs hf (by omega)] at hxs
  have hcont : contents (ring (s + 1) c ((f + c - 1) % c)
      (mem.set ((f + c - 1) % c) (some x))) = .ok (x :: xs) := by
    rw [contents_ring_iff_get _ _ _ _ _ hg (by omega)]
    refine ⟨by simp [hxs.1], fun j hj => ?_⟩
    cases j with
    | zero =>
      rw [Nat.add_zero, Nat.mod_mod, set_same _ _ _ (by omega)]; simp
    | succ j =>
      have hne : (f + c - 1) % c ≠ ((f + c - 1) % c + (j + 1)) % c := by
        intro h
        have h2 : ((f + c - 1) % c + 0) % c = ((f + c - 1) % c + (j + 1)) % c := by
          rw [Nat.add_zero, Nat.mod_mod]; exact h
        have := slot_inj (by omega) (by omega) h2
        omega
      rw [set_other _ _ _ _ hne, Nat.mod_add_mod,
        show f + c - 1 + (j + 1) = f + j + c by omega, Nat.add_mod_right,
        hxs.2 j (by omega), List.getElem?_cons_succ]
  refine ⟨_, push_front_ring_lt s c f mem x hs hf hlen, hcont, rfl, rfl, ?_⟩
  exact wf_ring_of_contents _ _ _ _ _ hg (by omega) (by simp [hlen]) hcont

theorem push_front_contents_full (b : circular_buffer α) (x : α) (xs : List α)
    (hwf : wf b) (hxs : contents b = .ok xs) (hc : 0 < b.capacity_)
    (hs : b.size_ = b.capacity_) :
    ∃ b1, push_front b x = .ok b1 ∧ contents b1 = .ok (x :: xs.dropLast) ∧
      b1.size_ = b.size_ ∧ b1.capacity_ = b.capacity_ ∧ wf b1 := by
  obtain ⟨f, hf, hb, hlen, -, -⟩ := wf_pos b hwf hc
  generalize b.size_ = s at *
  generalize b.capacity_ = c at *
  generalize b.mem = mem at *
  subst hs
  subst hb
  have hg : (f + s - 1) % s < s := Nat.mod_lt _ hc
  rw [contents_ring_iff_get s s f mem xs hf (by omega)] at hxs
  have hcont : contents (ring s s ((f + s - 1) % s)
      (mem.set ((f + s - 1) % s) (some x))) = .ok (x :: xs.dropLast) := by
    rw [contents_ring_iff_get _ _ _ _ _ hg (by omega)]
    refine ⟨by simp [hxs.1]; omega, fun j hj => ?_⟩
    cases j with
    | zero =>
      rw [Nat.add_zero, Nat.mod_mod, set_same _ _ _ (by omega)]; simp
    | succ j =>
      have hne : (f + s - 1) % s ≠ ((f + s - 1) % s + (j + 1)) % s := by
        intro h
        have h2 : ((f + s - 1) % s + 0) % s = ((f + s - 1) % s + (j + 1)) % s := by
          rw [Nat.add_zero, Nat.mod_mod]; exact h
        have := slot_inj (by omega) (by omega) h2
        omega
      rw [set_other _ _ _ _ hne, Nat.mod_add_mod,
        show f + s - 1 + (j + 1) = f + j + s by omega, Nat.add_mod_right,
        hxs.2 j (by omega), List.getElem?_cons_succ,
        getElem?_dropLast_lt _ _ (by omega)]
  refine ⟨_, push_front_ring_full s f mem x hc hf hlen, hcont, rfl, rfl, ?_⟩
  exact wf_ring_of_contents _ _ _ _ _ hg (by omega) (by simp [hlen]) hcont

theorem pop_back_contents (b : circular_buffer α) (xs : List α)
    (hwf : wf b) (hxs : contents b = .ok xs) (hs : b.size_ ≠ 0) :
    ∃ b1, pop_back b = .ok b1 ∧ contents b1 = .ok xs.dropLast ∧
      b1.size_ + 1 = b.size_ ∧ b1.capacity_ = b.capacity_ ∧ wf b1 := by
  have hc : 0 < b.capacity_ := by have := hwf.2.1; omega
  obtain ⟨f, hf, hb, hlen, hsc, -⟩ := wf_pos b hwf hc
  generalize b.size_ = s at *
  generalize b.capacity_ = c at *
  generalize b.mem = mem at *
  subst hb
  rw [contents_ring_iff_get s c f mem xs hf hsc] at hxs
  have hb1 : s - 1 < xs.length := by omega
  have hv : mem[(f + (s - 1)) % c]? = some (some xs[s - 1]) := by
    rw [hxs.2 (s - 1) (by omega), List.getElem?_eq_getElem hb1]; rfl
  have hcont : contents (ring (s - 1) c f (mem.set ((f + (s - 1)) % c) none))
      = .ok xs.dropLast := by
    rw [contents_ring_iff_get _ _ _ _ _ hf (by omega)]
    refine ⟨by simp [hxs.1], fun j hj => ?_⟩
    have hne : (f + (s - 1)) % c ≠ (f + j) % c := by
      intro h
      have := slot_inj (by omega) (by omega) h
      omega
    rw [set_other _ _ _ _ hne, hxs.2 j (by omega), getElem?_dropLast_lt _ _ (by omega)]
  refine ⟨_, pop_back_ring s c f mem _ (by omega) hc hv, hcont, ?_, rfl, ?_⟩
  · show s - 1 + 1 = s; omega
  · exact wf_ring_of_contents _ _ _ _ _ hf (by omega) (by simp [hlen]) hcont

theorem pop_front_contents (b : circular_buffer α) (xs : List α)
    (hwf : wf b) (hxs : contents b = .ok xs) (hs : b.size_ ≠ 0) :
    ∃ b1, pop_front b = .ok b1 ∧ contents b1 = .ok xs.tail ∧
      b1.size_ + 1 = b.size_ ∧ b1.capacity_ = b.capacity_ ∧ wf b1 := by
  have hc : 0 < b.capacity_ := by have := hwf.2.1; omega
  obtain ⟨f, hf, hb, hlen, hsc, -⟩ := wf_pos b hwf hc
  generalize b.size_ = s at *
  generalize b.capacity_ = c at *
  generalize b.mem = mem at *
  subst hb
  rw [contents_ring_iff_get s c f mem xs hf hsc] at hxs
  have hb0 : 0 < xs.length := by omega
  have hv : mem[f]? = some (some xs[0]) := by
    have := hxs.2 0 (by omega)
    rw [Nat.add_zero, Nat.mod_eq_of_lt hf] at this
    rw [this, List.getElem?_eq_getElem hb0]; rfl
  have hcont : contents (ring (s - 1) c ((f + 1) % c) (mem.set f none)) = .ok xs.tail := by
    rw [contents_ring_iff_get _ _ _ _ _ (Nat.mod_lt _ hc) (by omega)]
    refine ⟨by simp [hxs.1], fun j hj => ?_⟩
    have hne : f ≠ (f + (j + 1)) % c := by
      intro h
      have h2 : (f + 0) % c = (f + (j + 1)) % c := by
        rw [Nat.add_zero, Nat.mod_eq_of_lt hf]; exact h
      have := slot_inj (by omega) (by omega) h2
      omega
    rw [Nat.mod_add_mod, show f + 1 + j = f + (j + 1) by omega, set_other _ _ _ _ hne,
      hxs.2 (j + 1) (by omega), List.getElem?_tail]
  refine ⟨_, pop_front_ring s c f mem _ (by omega) hf hv, hcont, ?_, rfl, ?_⟩
  · show s - 1 + 1 = s; omega
  · exact wf_ring_of_contents _ _ _ _ _ (Nat.mod_lt _ hc) (by omega) (by simp [hlen]) hcont

end circular_buffer
namespace circular_buffer
open circular_buffer_details
variable {α : Type}

/-! ## Construction and repeated pushes -/

theorem create_pos (c : Nat) (hc : 0 < c) :
    (create c : Except Fault (circular_buffer α)) =
      .ok (ring 0 c 0 (List.replicate c none)) := by
  unfold create initialize_buffer allocate padd
  simp only [if_neg (Nat.pos_iff_ne_zero.mp hc), bind, Except.bind, pure, Except.pure, ring]
  simp [Nat.mod_eq_of_lt hc]

theorem create_zero :
    (create 0 : Except Fault (circular_buffer α)) =
      .ok { size_ := 0, capacity_ := 0, buffer_ := none, end_ := none,
            first_ := none, last_ := none, mem := [] } := rfl

theorem wf_create (c : Nat) :
    ∃ b : circular_buffer α, create c = .ok b ∧ wf b ∧ b.size_ = 0 ∧ b.capacity_ = c ∧
      contents b = .ok [] := by
  rcases Nat.eq_zero_or_pos c with hc | hc
  · subst hc
    refine ⟨_, create_zero, ⟨rfl, Nat.le_refl _, fun _ => ⟨rfl, rfl, rfl, rfl⟩, ?_⟩, rfl, rfl, rfl⟩
    intro h; exact absurd h (Nat.lt_irrefl _)
  · refine ⟨_, create_pos c hc, ?_, rfl, rfl, rfl⟩
    exact wf_ring 0 c 0 _ hc (Nat.zero_le _) (by simp) (fun i hi => absurd hi (Nat.not_lt_zero _))

theorem push_back_contents (b : circular_buffer α) (x : α) (xs : List α)
    (hwf : wf b) (hxs : contents b = .ok xs) (hc : 0 < b.capacity_) :
    ∃ b1, push_back b x = .ok b1 ∧ wf b1 ∧ b1.capacity_ = b.capacity_ ∧
      contents b1 = .ok ((xs ++ [x]).drop ((xs ++ [x]).length - b.capacity_)) := by
  have hlenxs : xs.length = b.size_ := by
    obtain ⟨f, hf, hb, -, hsc, -⟩ := wf_pos b hwf hc
    rw [hb, contents_ring_iff_get _ _ _ _ _ hf hsc] at hxs
    exact hxs.1
  rcases Nat.lt_or_ge b.size_ b.capacity_ with hs | hs
  · obtain ⟨b1, h1, h2, -, h4, h5⟩ := push_back_contents_lt b x xs hwf hxs hs
    refine ⟨b1, h1, h5, h4, ?_⟩
    have : (xs ++ [x]).length - b.capacity_ = 0 := by simp; omega
    rw [this, List.drop_zero]; exact h2
  · have hs2 : b.size_ = b.capacity_ := Nat.le_antisymm hwf.2.1 hs
    obtain ⟨b1, h1, h2, -, h4, h5⟩ := push_back_contents_full b x xs hwf hxs hc hs2
    refine ⟨b1, h1, h5, h4, ?_⟩
    have : (xs ++ [x]).length - b.capacity_ = 1 := by simp; omega
    rw [this, List.drop_one, h2]
    cases xs with
    | nil => simp at hlenxs; omega
    | cons y ys => rfl

theorem drop_last_append (c : Nat) (l ys : List α) :
    ((l.drop (l.length - c)) ++ ys).drop ((l.drop (l.length - c) ++ ys).length - c) =
      (l ++ ys).drop ((l ++ ys).length - c) := by
  rw [← List.drop_append_of_le_length (Nat.sub_le _ _), List.drop_drop]
  congr 1
  simp only [List.length_drop, List.length_append]
  omega

theorem push_back_all_contents (ys : List α) (b : circular_buffer α) (xs : List α)
    (hwf : wf b) (hxs : contents b = .ok xs) (hc : 0 < b.capacity_) :
    ∃ b1, push_back_all b ys = .ok b1 ∧ wf b1 ∧ b1.capacity_ = b.capacity_ ∧
      contents b1 = .ok ((xs ++ ys).drop ((xs ++ ys).length - b.capacity_)) := by
  induction ys generalizing b xs with
  | nil =>
    refine ⟨b, rfl, hwf, rfl, ?_⟩
    have hlenxs : xs.length ≤ b.capacity_ := by
      obtain ⟨f, hf, hb, -, hsc, -⟩ := wf_pos b hwf hc
      have h2 := hxs
      rw [hb, contents_ring_iff_get _ _ _ _ _ hf hsc] at h2
      omega
    have : (xs ++ []).length - b.capacity_ = 0 := by simp; omega
    rw [this, List.drop_zero, List.append_nil]; exact hxs
  | cons y ys ih =>
    obtain ⟨b1, h1, hwf1, hcap1, hcont1⟩ := push_back_contents b y xs hwf hxs hc
    obtain ⟨b2, h2, hwf2, hcap2, hcont2⟩ := ih b1 _ hwf1 hcont1 (by omega)
    refine ⟨b2, ?_, hwf2, by omega, ?_⟩
    · simp only [push_back_all, h1]; exact h2
    · rw [hcont2, hcap1, drop_last_append]
      simp

end circular_buffer
namespace circular_buffer
open circular_buffer_details
variable {α : Type}

/-! ## Push and pop contracts -/

/-- C1: `push_back` on a well-formed buffer with logical contents `xs`: a
zero-capacity buffer is unchanged; below capacity the contents become
`xs ++ [x]` and the size grows by one; at capacity the contents become
`tail xs ++ [x]` with the same size.  Pushing a list `ys` onto `create c`,
`c > 0`, leaves the last `min c |ys|` elements of `ys`; capacity 3 and
`1,2,3,4` give `[2,3,4]`. -/
theorem push_back_postcondition (b : circular_buffer α) (x : α) (xs : List α)
    (hwf : wf b) (hxs : contents b = .ok xs) :
    (b.capacity_ = 0 → push_back b x = .ok b) ∧
    (0 < b.capacity_ → b.size_ < b.capacity_ →
      ∃ b1, push_back b x = .ok b1 ∧ contents b1 = .ok (xs ++ [x]) ∧
        b1.size_ = b.size_ + 1 ∧ b1.capacity_ = b.capacity_ ∧ wf b1) ∧
    (0 < b.capacity_ → b.size_ = b.capacity_ →
      ∃ b1, push_back b x = .ok b1 ∧ contents b1 = .ok (xs.tail ++ [x]) ∧
        b1.size_ = b.size_ ∧ b1.capacity_ = b.capacity_ ∧ wf b1) ∧
    (∀ (c : Nat) (ys : List α), 0 < c →
      ∃ b0 b1, create c = .ok b0 ∧ push_back_all b0 ys = .ok b1 ∧
        contents b1 = .ok (ys.drop (ys.length - min c ys.length))) ∧
    (∃ b0 b1 : circular_buffer Nat, create 3 = .ok b0 ∧
      push_back_all b0 [1, 2, 3, 4] = .ok b1 ∧ contents b1 = .ok [2, 3, 4]) := by
  refine ⟨fun h0 => ?_, fun _ hs => push_back_contents_lt b x xs hwf hxs hs,
    fun hc hs => push_back_contents_full b x xs hwf hxs hc hs, fun c ys hc => ?_,
    ⟨_, _, rfl, rfl, rfl⟩⟩
  · unfold push_back; rw [if_pos h0]; rfl
  · obtain ⟨b0, h0, hwf0, -, hcap0, hcont0⟩ := wf_create (α := α) c
    obtain ⟨b1, h1, -, -, hcont1⟩ := push_back_all_contents ys b0 [] hwf0 hcont0 (by omega)
    refine ⟨b0, b1, h0, h1, ?_⟩
    rw [hcont1, hcap0, List.nil_append]
    congr 2
    omega

/-- C1 at the full buffer `[1,2,3]` of capacity 3: pushing 4 evicts 1. -/
theorem push_back_postcondition_witness :
    wf (ring 3 3 0 [some 1, some 2, some 3]) ∧
    contents (ring 3 3 0 [some 1, some 2, some 3]) = .ok [1, 2, 3] ∧
    ∃ b1, push_back (ring 3 3 0 [some 1, some 2, some 3]) 4 = .ok b1 ∧
      contents b1 = .ok [2, 3, 4] ∧ b1.size_ = 3 ∧ b1.capacity_ = 3 ∧ wf b1 :=
  have hwf : wf (ring 3 3 0 [some 1, some 2, some 3]) :=
    wf_ring_of_contents 3 3 0 _ [1, 2, 3] (by decide) (by decide) rfl rfl
  ⟨hwf, rfl,
    (push_back_postcondition (ring 3 3 0 [some 1, some 2, some 3]) 4 [1, 2, 3] hwf rfl).2.2.1
      (by decide) rfl⟩

/-- C2: `push_front` on a well-formed buffer with logical contents `xs`: a
zero-capacity buffer is unchanged; below capacity the contents become
`x :: xs` and the size grows by one; at capacity the contents become
`x :: dropLast xs` with the same size.  Front-pushing `1,2,3,4` onto an empty
buffer of capacity 3 gives `[4,3,2]`. -/
theorem push_front_postcondition (b : circular_buffer α) (x : α) (xs : List α)
    (hwf : wf b) (hxs : contents b = .ok xs) :
    (b.capacity_ = 0 → push_front b x = .ok b) ∧
    (0 < b.capacity_ → b.size_ < b.capacity_ →
      ∃ b1, push_front b x = .ok b1 ∧ contents b1 = .ok (x :: xs) ∧
        b1.size_ = b.size_ + 1 ∧ b1.capacity_ = b.capacity_ ∧ wf b1) ∧
    (0 < b.capacity_ → b.size_ = b.capacity_ →
      ∃ b1, push_front b x = .ok b1 ∧ contents b1 = .ok (x :: xs.dropLast) ∧
        b1.size_ = b.size_ ∧ b1.capacity_ = b.capacity_ ∧ wf b1) ∧
    (∃ b0 b1 : circular_buffer Nat, create 3 = .ok b0 ∧
      push_front_all b0 [1, 2, 3, 4] = .ok b1 ∧ contents b1 = .ok [4, 3, 2]) := by
  refine ⟨fun h0 => ?_, fun _ hs => push_front_contents_lt b x xs hwf hxs hs,
    fun hc hs => push_front_contents_full b x xs hwf hxs hc hs, ⟨_, _, rfl, rfl, rfl⟩⟩
  unfold push_front; rw [if_pos h0]; rfl

/-- C2 at the full buffer `[3,2,1]` of capacity 3 whose window starts at
slot 1: front-pushing 4 evicts the newest element 1. -/
theorem push_front_postcondition_witness :
    wf (ring 3 3 1 [some 1, some 3, some 2]) ∧
    contents (ring 3 3 1 [some 1, some 3, some 2]) = .ok [3, 2, 1] ∧
    ∃ b1, push_front (ring 3 3 1 [some 1, some 3, some 2]) 4 = .ok b1 ∧
      contents b1 = .ok [4, 3, 2] ∧ b1.size_ = 3 ∧ b1.capacity_ = 3 ∧ wf b1 :=
  have hwf : wf (ring 3 3 1 [some 1, some 3, some 2]) :=
    wf_ring_of_contents 3 3 1 _ [3, 2, 1] (by decide) (by decide) rfl rfl
  ⟨hwf, rfl,
    (push_front_postcondition (ring 3 3 1 [some 1, some 3, some 2]) 4 [3, 2, 1] hwf rfl).2.2.1
      (by decide) rfl⟩

/-- C3: on a well-formed buffer with `size != 0` and logical contents `xs`,
`pop_back` leaves `dropLast xs` and `pop_front` leaves `tail xs`; either way
the size drops by exactly one and the capacity is unchanged. -/
theorem pop_postcondition (b : circular_buffer α) (xs : List α)
    (hwf : wf b) (hxs : contents b = .ok xs) (hs : b.size_ ≠ 0) :
    (∃ b1, pop_back b = .ok b1 ∧ contents b1 = .ok xs.dropLast ∧
      b1.size_ + 1 = b.size_ ∧ b1.capacity_ = b.capacity_ ∧ wf b1) ∧
    (∃ b1, pop_front b = .ok b1 ∧ contents b1 = .ok xs.tail ∧
      b1.size_ + 1 = b.size_ ∧ b1.capacity_ = b.capacity_ ∧ wf b1) :=
  ⟨pop_back_contents b xs hwf hxs hs, pop_front_contents b xs hwf hxs hs⟩

/-- C3 at the wrapped buffer `[2,3,4]` of capacity 3 (window from slot 1). -/
theorem pop_postcondition_witness :
    wf (ring 3 3 1 [some 4, some 2, some 3]) ∧
    contents (ring 3 3 1 [some 4, some 2, some 3]) = .ok [2, 3, 4] ∧
    (∃ b1, pop_back (ring 3 3 1 [some 4, some 2, some 3]) = .ok b1 ∧
      contents b1 = .ok [2, 3] ∧ b1.size_ + 1 = 3 ∧ b1.capacity_ = 3 ∧ wf b1) ∧
    (∃ b1, pop_front (ring 3 3 1 [some 4, some 2, some 3]) = .ok b1 ∧
      contents b1 = .ok [3, 4] ∧ b1.size_ + 1 = 3 ∧ b1.capacity_ = 3 ∧ wf b1) :=
  have hwf : wf (ring 3 3 1 [some 4, some 2, some 3]) :=
    wf_ring_of_contents 3 3 1 _ [2, 3, 4] (by decide) (by decide) rfl rfl
  ⟨hwf, rfl,
    pop_postcondition (ring 3 3 1 [some 4, some 2, some 3]) [2, 3, 4] hwf rfl (by decide)⟩

end circular_buffer
namespace circular_buffer
open circular_buffer_details
variable {α : Type}

/-! ## Iterators -/

theorem begin_ring (s c f : Nat) (mem : List (Option α)) (hs : s ≠ 0) :
    (ring s c f mem).begin = { buff_ := some (ring s c f mem), ptr_ := some (f : Int) } := by
  unfold begin
  rw [if_neg (by simpa [ring] using hs)]
  rfl

theorem end_iter_ring (s c f : Nat) (mem : List (Option α)) (hs : s ≠ 0) :
    (ring s c f mem).end_iter = { buff_ := some (ring s c f mem), ptr_ := none } := by
  unfold end_iter
  rw [if_neg (by simpa [ring] using hs)]

theorem inc_ring (s c f k : Nat) (mem : List (Option α)) (hk : k < s) (hs : s ≤ c) :
    iterator.inc { buff_ := some (ring s c f mem), ptr_ := pos_ptr s c f k } =
      .ok { buff_ := some (ring s c f mem), ptr_ := pos_ptr s c f (k + 1) } := by
  have hc : 0 < c := by omega
  have h1 := next_nat (ring s c f mem) c ((f + k) % c) rfl rfl (Nat.mod_lt _ hc)
  rw [slot_succ] at h1
  have h2 := slot_eq_last_iff (c := c) (f := f) (k := k + 1) (s := s) (by omega) (by omega) hs
  unfold iterator.inc pos_ptr
  simp only [if_neg (show k ≠ s by omega), h1]
  simp only [ring, Option.some.injEq, Nat.cast_inj, h2]

theorem inc_times_ring (s c f : Nat) (mem : List (Option α)) (hs : s ≤ c) (k j : Nat)
    (hjk : j + k ≤ s) :
    inc_times k { buff_ := some (ring s c f mem), ptr_ := pos_ptr s c f j } =
      .ok { buff_ := some (ring s c f mem), ptr_ := pos_ptr s c f (j + k) } := by
  induction k generalizing j with
  | zero => rfl
  | succ k ih =>
    simp only [inc_times, inc_ring s c f j mem (by omega) hs]
    rw [ih (j + 1) (by omega)]
    congr 3
    omega

theorem pos_ptr_zero (s c f : Nat) (hs : s ≠ 0) (hf : f < c) :
    pos_ptr s c f 0 = some (f : Int) := by
  unfold pos_ptr
  rw [if_neg (by omega), Nat.add_zero, Nat.mod_eq_of_lt hf]

theorem deref_ring (s c f k : Nat) (mem : List (Option α)) (hk : k < s) :
    iterator.deref { buff_ := some (ring s c f mem), ptr_ := pos_ptr s c f k } =
      load mem (some (((f + k) % c : Nat) : Int)) := by
  unfold iterator.deref pos_ptr
  simp only [if_neg (show k ≠ s by omega)]
  rfl

/-- C9: on a well-formed non-empty buffer, `k < size` applications of
`operator++` to `begin()` give an iterator that differs from `end()` and
dereferences to `element_at(k)`, and `size` applications give `end()`. -/
theorem round_trip_iteration (b : circular_buffer α) (hwf : wf b) (hs : b.size_ ≠ 0) :
    (∀ k, k < b.size_ → ∃ it v, inc_times k b.begin = .ok it ∧
      it.ne b.end_iter = true ∧ it.deref = .ok v ∧ element_at b k = .ok v) ∧
    (∃ it, inc_times b.size_ b.begin = .ok it ∧ it = b.end_iter ∧
      it.eq b.end_iter = true) := by
  have hc : 0 < b.capacity_ := by have := hwf.2.1; omega
  obtain ⟨f, hf, hb, hlen, hsc, hlive⟩ := wf_pos b hwf hc
  generalize b.size_ = s at *
  generalize b.capacity_ = c at *
  generalize b.mem = mem at *
  subst hb
  rw [begin_ring s c f mem hs, end_iter_ring s c f mem hs, ← pos_ptr_zero s c f hs hf]
  constructor
  · intro k hk
    obtain ⟨v, hv⟩ := hlive k hk
    refine ⟨_, v, inc_times_ring s c f mem hsc k 0 (by omega), ?_, ?_, ?_⟩
    · simp [iterator.ne, iterator.eq, pos_ptr]
      omega
    · rw [Nat.zero_add, deref_ring s c f k mem hk, load_ok_iff]; exact hv
    · rw [element_at_ring s c f mem k hf (by omega), load_ok_iff]; exact hv
  · refine ⟨_, inc_times_ring s c f mem hsc s 0 (by omega), ?_, ?_⟩
    · simp [pos_ptr]
    · simp [iterator.eq, pos_ptr]

/-- C9 at the wrapped full buffer `[2,3,4]` of capacity 3 (window from slot 1). -/
theorem round_trip_iteration_witness :
    wf (ring 3 3 1 [some 4, some 2, some 3]) ∧
    (∀ k, k < 3 → ∃ it v, inc_times k (ring 3 3 1 [some 4, some 2, some 3]).begin = .ok it ∧
      it.ne (ring 3 3 1 [some 4, some 2, some 3]).end_iter = true ∧ it.deref = .ok v ∧
      element_at (ring 3 3 1 [some 4, some 2, some 3]) k = .ok v) ∧
    (∃ it, inc_times 3 (ring 3 3 1 [some 4, some 2, some 3]).begin = .ok it ∧
      it = (ring 3 3 1 [some 4, some 2, some 3]).end_iter ∧
      it.eq (ring 3 3 1 [some 4, some 2, some 3]).end_iter = true) :=
  have hwf : wf (ring 3 3 1 [some 4, some 2, some 3]) :=
    wf_ring_of_contents 3 3 1 _ [2, 3, 4] (by decide) (by decide) rfl rfl
  ⟨hwf, round_trip_iteration (ring 3 3 1 [some 4, some 2, some 3]) hwf (by decide)⟩

end circular_buffer
namespace circular_buffer
open circular_buffer_details
variable {α : Type}

/-! ## Random access through iterators -/

theorem slot_eq_last_iff_good {c f k s : Nat} (hks : k ≤ s) (hs : s ≤ c) (hs0 : 0 < s)
    (hgood : 0 < k ∨ s < c) : (f + k) % c = (f + s) % c ↔ k = s := by
  rcases Nat.eq_zero_or_pos k with hk | hk
  · subst hk
    constructor
    · intro h
      have hsc : s < c := by omega
      exact slot_inj (by omega) hsc h
    · intro h; rw [h]
  · exact slot_eq_last_iff hk hks hs

theorem add_ring (s c f k : Nat) (mem : List (Option α)) (hf : f < c) (hk : k ≤ s)
    (hs : s ≤ c) (hs0 : 0 < s) (hgood : 0 < k ∨ s < c) :
    iterator.add { buff_ := some (ring s c f mem), ptr_ := some (f : Int) } (k : Int) =
      .ok { buff_ := some (ring s c f mem), ptr_ := pos_ptr s c f k } := by
  have h1 := incr_nat (ring s c f mem) c f k rfl rfl hf (by omega)
  have h2 := slot_eq_last_iff_good (f := f) hk hs hs0 hgood
  unfold iterator.add iterator.add_assign pos_ptr
  simp only [ge_iff_le, Int.ofNat_zero_le, if_true, h1]
  simp only [ring, Option.some.injEq, Nat.cast_inj, h2]

/-- C10 away from the full buffer at offset 0: on a well-formed buffer, for
`k < size` with `k > 0` or `size < capacity`, `begin() + k` is a live iterator
and dereferences to `element_at(k)`. -/
theorem random_access_live (b : circular_buffer α) (k : Nat) (hwf : wf b)
    (hk : k < b.size_) (hgood : 0 < k ∨ b.size_ < b.capacity_) :
    ∃ it v, b.begin.add (k : Int) = .ok it ∧ it.ptr_ ≠ none ∧
      it.ne b.end_iter = true ∧ it.deref = .ok v ∧ element_at b k = .ok v := by
  have hc : 0 < b.capacity_ := by have := hwf.2.1; omega
  obtain ⟨f, hf, hb, hlen, hsc, hlive⟩ := wf_pos b hwf hc
  generalize b.size_ = s at *
  generalize b.capacity_ = c at *
  generalize b.mem = mem at *
  subst hb
  obtain ⟨v, hv⟩ := hlive k hk
  rw [begin_ring s c f mem (by omega), end_iter_ring s c f mem (by omega)]
  refine ⟨_, v, add_ring s c f k mem hf (by omega) hsc (by omega) hgood, ?_, ?_, ?_, ?_⟩
  · simp [pos_ptr]; omega
  · simp [iterator.ne, iterator.eq, pos_ptr]; omega
  · rw [deref_ring s c f k mem hk, load_ok_iff]; exact hv
  · rw [element_at_ring s c f mem k hf (by omega), load_ok_iff]; exact hv

/-- Instance of `random_access_live` at offset 2 of the wrapped full buffer `[2,3,4]`. -/
theorem random_access_live_witness :
    wf (ring 3 3 1 [some 4, some 2, some 3]) ∧
    ∃ it v, (ring 3 3 1 [some 4, some 2, some 3]).begin.add ((2 : Nat) : Int) = .ok it ∧
      it.ptr_ ≠ none ∧ it.ne (ring 3 3 1 [some 4, some 2, some 3]).end_iter = true ∧
      it.deref = .ok v ∧ element_at (ring 3 3 1 [some 4, some 2, some 3]) 2 = .ok v :=
  have hwf : wf (ring 3 3 1 [some 4, some 2, some 3]) :=
    wf_ring_of_contents 3 3 1 _ [2, 3, 4] (by decide) (by decide) rfl rfl
  ⟨hwf, random_access_live (ring 3 3 1 [some 4, some 2, some 3]) 2 hwf (by decide)
    (Or.inl (by decide))⟩

/-! ## `set_capacity` -/

theorem pos_ptr_inj (s c f j t : Nat) (hj : j < t) (ht : t ≤ s) (hs : s ≤ c) :
    pos_ptr s c f j ≠ pos_ptr s c f t := by
  unfold pos_ptr
  rw [if_neg (show j ≠ s by omega)]
  split
  · simp
  · intro h
    simp only [Option.some.injEq, Nat.cast_inj] at h
    have := slot_inj (by omega) (by omega) h
    omega

theorem copy_ring (s c f t : Nat) (mem : List (Option α)) (xs : List α)
    (hs : s ≤ c) (ht : t ≤ s) (hl : xs.length = s)
    (hxs : ∀ j, j < s → mem[(f + j) % c]? = Option.map some xs[j]?) :
    ∀ (d j o fuel : Nat) (newmem : List (Option α)), j + d = t → d < fuel →
      o + d ≤ newmem.length →
      ∃ newmem1, copy fuel { buff_ := some (ring s c f mem), ptr_ := pos_ptr s c f j }
          { buff_ := some (ring s c f mem), ptr_ := pos_ptr s c f t }
          (some (o : Int)) newmem = .ok (some ((o + d : Nat) : Int), newmem1) ∧
        newmem1.length = newmem.length ∧
        (∀ i, i < d → newmem1[o + i]? = Option.map some xs[j + i]?) ∧
        (∀ i, i < o → newmem1[i]? = newmem[i]?) := by
  intro d
  induction d with
  | zero =>
    intro j o fuel newmem hj hfuel ho
    obtain ⟨fuel, rfl⟩ : ∃ k, fuel = k + 1 := ⟨fuel - 1, by omega⟩
    have : j = t := by omega
    subst this
    refine ⟨newmem, ?_, rfl, fun i hi => absurd hi (Nat.not_lt_zero _), fun i _ => rfl⟩
    simp [copy, iterator.ne, iterator.eq]
  | succ d ih =>
    intro j o fuel newmem hj hfuel ho
    obtain ⟨fuel, rfl⟩ : ∃ k, fuel = k + 1 := ⟨fuel - 1, by omega⟩
    have hjs : j < s := by omega
    have hne : pos_ptr s c f j ≠ pos_ptr s c f t := pos_ptr_inj s c f j t (by omega) ht hs
    have hjl : j < xs.length := by omega
    have hv : mem[(f + j) % c]? = some (some xs[j]) := by
      rw [hxs j hjs, List.getElem?_eq_getElem hjl]; rfl
    have h1 : iterator.deref { buff_ := some (ring s c f mem), ptr_ := pos_ptr s c f j }
        = .ok xs[j] := by
      rw [deref_ring s c f j mem hjs, load_ok_iff]; exact hv
    have h2 := construct_nat newmem o xs[j] (by omega)
    have h3 := inc_ring s c f j mem hjs hs
    obtain ⟨newmem1, hcopy, hlen1, hfill, hkeep⟩ :=
      ih (j + 1) (o + 1) fuel (newmem.set o (some xs[j])) (by omega) (by omega)
        (by simp; omega)
    refine ⟨newmem1, ?_, by simpa using hlen1, fun i hi => ?_, fun i hi => ?_⟩
    · simp only [copy, iterator.ne, iterator.eq, hne, decide_False, Bool.not_false, if_true,
        h1, h2, h3, padd]
      rw [show ((o : Int) + 1) = ((o + 1 : Nat) : Int) by push_cast; rfl, hcopy]
      congr 3
      omega
    · cases i with
      | zero =>
        rw [Nat.add_zero, Nat.add_zero, hkeep o (by omega), set_same _ _ _ (by omega),
          List.getElem?_eq_getElem hjl]
        rfl
      | succ i =>
        have := hfill i (by omega)
        rw [show o + (i + 1) = o + 1 + i by omega, show j + (i + 1) = j + 1 + i by omega]
        exact this
    · rw [hkeep i (by omega), set_other _ _ _ _ (by omega)]

theorem destroy_loop_ok (c : Nat) :
    ∀ (n f : Nat) (b : circular_buffer α), b.buffer_ = some 0 → b.end_ = some (c : Int) →
      b.first_ = some (f : Int) → f < c → n ≤ c →
      (∀ i, i < n → ∃ v, b.mem[(f + i) % c]? = some (some v)) →
      ∃ d, destroy_loop n b = .ok d ∧ d.capacity_ = b.capacity_ := by
  intro n
  induction n with
  | zero => intro f b _ _ _ _ _ _; exact ⟨b, rfl, rfl⟩
  | succ n ih =>
    intro f b hb he hfi hf hn hlive
    obtain ⟨v, hv⟩ := hlive 0 (by omega)
    rw [Nat.add_zero, Nat.mod_eq_of_lt hf] at hv
    have h1 := destroy_at_nat b.mem f v hv
    have h2 := next_nat b c f hb he hf
    have hc : 0 < c := by omega
    obtain ⟨d, hd, hcap⟩ := ih ((f + 1) % c)
      { b with mem := b.mem.set f none, first_ := some (((f + 1) % c : Nat) : Int) }
      hb he rfl (Nat.mod_lt _ hc) (by omega) (fun i hi => by
        obtain ⟨w, hw⟩ := hlive (i + 1) (by omega)
        refine ⟨w, ?_⟩
        have hne : f ≠ (f + (i + 1)) % c := by
          intro h
          have h2 : (f + 0) % c = (f + (i + 1)) % c := by
            rw [Nat.add_zero, Nat.mod_eq_of_lt hf]; exact h
          have := slot_inj (by omega) (by omega) h2
          omega
        show (b.mem.set f none)[((f + 1) % c + i) % c]? = _
        rw [Nat.mod_add_mod, show f + 1 + i = f + (i + 1) by omega, set_other _ _ _ _ hne]
        exact hw)
    refine ⟨d, ?_, hcap⟩
    simp only [destroy_loop, hfi, h1, h2]
    exact hd

theorem destroy_ring_ok (s c f : Nat) (mem : List (Option α)) (hf : f < c) (hs : s ≤ c)
    (hlive : ∀ i, i < s → ∃ v, mem[(f + i) % c]? = some (some v)) :
    ∃ d, destroy (ring s c f mem) = .ok d := by
  obtain ⟨d, hd, -⟩ := destroy_loop_ok c s f (ring s c f mem) rfl rfl rfl hf hs hlive
  refine ⟨if d.capacity_ = 0 then d else { d with mem := [] }, ?_⟩
  unfold destroy
  show (destroy_loop s (ring s c f mem) >>= _) = _
  rw [hd]
  rfl

end circular_buffer
namespace circular_buffer
open circular_buffer_details
variable {α : Type}

theorem reset_ring (b : circular_buffer α) (t n : Nat) (newmem : List (Option α))
    (hd : ∃ d, destroy b = .ok d) (ht : t ≤ n) (hn0 : 0 < n) (hn64 : n < 2 ^ 64) :
    reset b (some 0) newmem (some (t : Int)) n = .ok (ring t n 0 newmem) := by
  obtain ⟨d, hd⟩ := hd
  have e1 : (((t : Int) - 0) % 2 ^ 64).toNat = t := by
    have : ((t : Int) - 0) % 2 ^ 64 = (t : Int) := by
      rw [Int.sub_zero]; exact Int.emod_eq_of_lt (by omega) (by omega)
    rw [this]; exact Int.toNat_ofNat t
  have e2 : (0 + t) % n = if t = n then 0 else t := by
    rw [Nat.zero_add]
    split
    · subst_vars; exact Nat.mod_self _
    · exact Nat.mod_eq_of_lt (by omega)
  unfold reset
  simp only [hd, pdiff, padd, bind, Except.bind, pure, Except.pure, ring, e1, e2]
  congr 2
  · simp
  · split_ifs <;> simp_all

theorem reset_null (b : circular_buffer α) (hd : ∃ d, destroy b = .ok d) :
    reset b none [] none 0 = .ok empty_zero := by
  obtain ⟨d, hd⟩ := hd
  unfold reset
  simp [hd, pdiff, padd, bind, Except.bind, pure, Except.pure, empty_zero]

theorem set_capacity_ring_pos (s c f n : Nat) (mem : List (Option α)) (xs : List α)
    (hf : f < c) (hs : s ≤ c) (hs0 : 0 < s) (hl : xs.length = s)
    (hxs : ∀ j, j < s → mem[(f + j) % c]? = Option.map some xs[j]?)
    (hn : n ≠ c) (hn0 : 0 < n) (hn64 : n < 2 ^ 64) :
    ∃ newmem, set_capacity (ring s c f mem) n = .ok (ring (min s n) n 0 newmem) ∧
      newmem.length = n ∧ ∀ i, i < min s n → newmem[i]? = Option.map some xs[i]? := by
  have hlive : ∀ i, i < s → ∃ v, mem[(f + i) % c]? = some (some v) := fun i hi =>
    ⟨xs[i], by rw [hxs i hi, List.getElem?_eq_getElem (by omega)]; rfl⟩
  have hadd := add_ring s c f (min s n) mem hf (Nat.min_le_left _ _) hs hs0
    (Or.inl (by omega))
  obtain ⟨newmem, hcopy, hlen1, hfill, -⟩ :=
    copy_ring s c f (min s n) mem xs hs (Nat.min_le_left _ _) hl hxs (min s n) 0 0 (n + 1)
      (List.replicate n none) (by omega) (by omega) (by simp)
  rw [pos_ptr_zero s c f (by omega) hf] at hcopy
  refine ⟨newmem, ?_, by simpa using hlen1, fun i hi => by simpa using hfill i hi⟩
  unfold set_capacity
  rw [if_neg (by simpa [ring] using hn), begin_ring s c f mem (by omega)]
  simp only [allocate, if_neg (Nat.pos_iff_ne_zero.mp hn0), bind, Except.bind]
  have hsz : (ring s c f mem).size_ = s := rfl
  rw [hsz, hadd]
  simp only [Nat.cast_zero] at hcopy
  simp only [hcopy, Nat.zero_add]
  exact reset_ring _ _ _ _ (destroy_ring_ok s c f mem hf hs hlive) (Nat.min_le_right _ _)
    hn0 hn64

theorem set_capacity_ring_zero (s c f : Nat) (mem : List (Option α))
    (hf : f < c) (hs : s < c) (hs0 : 0 < s)
    (hlive : ∀ i, i < s → ∃ v, mem[(f + i) % c]? = some (some v)) :
    set_capacity (ring s c f mem) 0 = .ok empty_zero := by
  have hadd := add_ring s c f 0 mem hf (Nat.zero_le _) (by omega) hs0 (Or.inr hs)
  rw [pos_ptr_zero s c f (by omega) hf] at hadd
  unfold set_capacity
  rw [if_neg (by simp [ring]; omega), begin_ring s c f mem (by omega)]
  have hsz : (ring s c f mem).size_ = s := rfl
  simp only [allocate, if_true, bind, Except.bind, hsz, Nat.min_zero]
  rw [hadd]
  simp only [copy, iterator.ne, iterator.eq, decide_True, Bool.not_true, Bool.false_eq_true,
    if_false]
  exact reset_null _ (destroy_ring_ok s c f mem hf (by omega) hlive)

end circular_buffer
namespace circular_buffer
open circular_buffer_details
variable {α : Type}

theorem contents_length (b : circular_buffer α) (xs : List α) (h : contents b = .ok xs) :
    xs.length = b.size_ := by
  unfold contents at h
  rw [collect_ok_iff] at h
  exact h.1

theorem contents_new_ring (t n : Nat) (newmem : List (Option α)) (xs : List α)
    (ht : t ≤ n) (hn0 : 0 < n) (hl : t ≤ xs.length)
    (hfill : ∀ i, i < t → newmem[i]? = Option.map some xs[i]?) :
    contents (ring t n 0 newmem) = .ok (xs.take t) := by
  rw [contents_ring_iff_get t n 0 newmem _ hn0 ht]
  refine ⟨by simp; omega, fun j hj => ?_⟩
  rw [Nat.zero_add, Nat.mod_eq_of_lt (by omega), hfill j hj, List.getElem?_take_of_lt hj]

/-- Shrink truncation where the code gets it right: on a well-formed buffer
with contents `xs`, for `new_capacity < size` with `new_capacity > 0` or
`size < capacity`, `set_capacity` gives capacity and size `new_capacity` and
contents the first `new_capacity` elements of `xs`. -/
theorem shrink_truncation (b : circular_buffer α) (xs : List α) (n : Nat)
    (hwf : wf b) (hxs : contents b = .ok xs) (hn : n < b.size_) (hn64 : n < 2 ^ 64)
    (hgood : 0 < n ∨ b.size_ < b.capacity_) :
    ∃ b1, set_capacity b n = .ok b1 ∧ b1.capacity_ = n ∧ b1.size_ = n ∧
      contents b1 = .ok (xs.take n) ∧ wf b1 := by
  have hc : 0 < b.capacity_ := by have := hwf.2.1; omega
  obtain ⟨f, hf, hb, hlen, hsc, hlive⟩ := wf_pos b hwf hc
  generalize b.size_ = s at *
  generalize b.capacity_ = c at *
  generalize b.mem = mem at *
  subst hb
  rw [contents_ring_iff_get s c f mem xs hf hsc] at hxs
  rcases Nat.eq_zero_or_pos n with h0 | h0
  · subst h0
    refine ⟨_, set_capacity_ring_zero s c f mem hf (by omega) (by omega) hlive,
      rfl, rfl, by simp [empty_zero, contents, collect], ?_⟩
    refine ⟨rfl, Nat.le_refl _, fun _ => ⟨rfl, rfl, rfl, rfl⟩, fun h => absurd h ?_⟩
    simp [empty_zero]
  · obtain ⟨newmem, hset, hlen1, hfill⟩ :=
      set_capacity_ring_pos s c f n mem xs hf hsc (by omega) hxs.1 hxs.2 (by omega) h0 hn64
    have hmin : min s n = n := by omega
    rw [hmin] at hset hfill
    have hcont := contents_new_ring n n newmem xs (Nat.le_refl _) h0 (by omega) hfill
    exact ⟨_, hset, rfl, rfl, hcont,
      wf_ring_of_contents _ _ _ _ _ h0 (Nat.le_refl _) hlen1 hcont⟩

/-- Instance of `shrink_truncation` at capacity 5 holding `[1,2,3,4,5]`:
`set_capacity(3)` yields `[1,2,3]`. -/
theorem shrink_truncation_witness :
    wf (ring 5 5 0 [some 1, some 2, some 3, some 4, some 5]) ∧
    contents (ring 5 5 0 [some 1, some 2, some 3, some 4, some 5]) = .ok [1, 2, 3, 4, 5] ∧
    ∃ b1, set_capacity (ring 5 5 0 [some 1, some 2, some 3, some 4, some 5]) 3 = .ok b1 ∧
      b1.capacity_ = 3 ∧ b1.size_ = 3 ∧ contents b1 = .ok [1, 2, 3] ∧ wf b1 :=
  have hwf : wf (ring 5 5 0 [some 1, some 2, some 3, some 4, some 5]) :=
    wf_ring_of_contents 5 5 0 _ [1, 2, 3, 4, 5] (by decide) (by decide) rfl rfl
  ⟨hwf, rfl,
    shrink_truncation (ring 5 5 0 [some 1, some 2, some 3, some 4, some 5]) [1, 2, 3, 4, 5] 3
      hwf rfl (by decide) (by decide) (Or.inl (by decide))⟩

/-- C5: on a well-formed non-empty buffer with contents `xs`, `set_capacity`
to a larger capacity keeps the size and the contents, puts `first_` at slot 0
of the new region, and the next `new_capacity - size` calls of `push_back`
append without evicting. -/
theorem grow_preserves_order (b : circular_buffer α) (xs : List α) (n : Nat)
    (hwf : wf b) (hxs : contents b = .ok xs) (hs : b.size_ ≠ 0) (hn : b.capacity_ < n)
    (hn64 : n < 2 ^ 64) :
    ∃ b1, set_capacity b n = .ok b1 ∧ b1.capacity_ = n ∧ b1.size_ = b.size_ ∧
      contents b1 = .ok xs ∧ b1.first_ = some 0 ∧ b1.first_ = b1.buffer_ ∧ wf b1 ∧
      ∀ ys : List α, ys.length ≤ n - b.size_ →
        ∃ b2, push_back_all b1 ys = .ok b2 ∧ contents b2 = .ok (xs ++ ys) ∧
          b2.size_ = b.size_ + ys.length ∧ b2.capacity_ = n := by
  have hc : 0 < b.capacity_ := by have := hwf.2.1; omega
  obtain ⟨f, hf, hb, hlen, hsc, hlive⟩ := wf_pos b hwf hc
  generalize b.size_ = s at *
  generalize b.capacity_ = c at *
  generalize b.mem = mem at *
  subst hb
  have hxs0 := hxs
  rw [contents_ring_iff_get s c f mem xs hf hsc] at hxs
  obtain ⟨newmem, hset, hlen1, hfill⟩ :=
    set_capacity_ring_pos s c f n mem xs hf hsc (by omega) hxs.1 hxs.2 (by omega) (by omega)
      hn64
  have hmin : min s n = s := by omega
  rw [hmin] at hset hfill
  have hcont := contents_new_ring s n newmem xs (by omega) (by omega) (by omega) hfill
  rw [List.take_of_length_le (by omega)] at hcont
  have hwf1 := wf_ring_of_contents _ _ _ _ _ (show 0 < n by omega) (show s ≤ n by omega)
    hlen1 hcont
  refine ⟨_, hset, rfl, rfl, hcont, rfl, rfl, hwf1, fun ys hys => ?_⟩
  obtain ⟨b2, h2, -, hcap2, hcont2⟩ :=
    push_back_all_contents ys _ xs hwf1 hcont (show 0 < n by omega)
  have hz : (xs ++ ys).length - (ring s n 0 newmem).capacity_ = 0 := by
    show (xs ++ ys).length - n = 0
    simp; omega
  rw [hz, List.drop_zero] at hcont2
  refine ⟨b2, h2, hcont2, ?_, hcap2⟩
  have := contents_length b2 _ hcont2
  simp at this
  omega

/-- C5 at capacity 3 holding `[1,2,3]`: `set_capacity(5)` keeps `[1,2,3]`. -/
theorem grow_preserves_order_witness :
    wf (ring 3 3 0 [some 1, some 2, some 3]) ∧
    contents (ring 3 3 0 [some 1, some 2, some 3]) = .ok [1, 2, 3] ∧
    ∃ b1, set_capacity (ring 3 3 0 [some 1, some 2, some 3]) 5 = .ok b1 ∧
      b1.capacity_ = 5 ∧ b1.size_ = 3 ∧ contents b1 = .ok [1, 2, 3] ∧
      b1.first_ = some 0 ∧ b1.first_ = b1.buffer_ ∧ wf b1 ∧
      ∀ ys : List Nat, ys.length ≤ 5 - 3 →
        ∃ b2, push_back_all b1 ys = .ok b2 ∧ contents b2 = .ok ([1, 2, 3] ++ ys) ∧
          b2.size_ = 3 + ys.length ∧ b2.capacity_ = 5 :=
  have hwf : wf (ring 3 3 0 [some 1, some 2, some 3]) :=
    wf_ring_of_contents 3 3 0 _ [1, 2, 3] (by decide) (by decide) rfl rfl
  ⟨hwf, rfl,
    grow_preserves_order (ring 3 3 0 [some 1, some 2, some 3]) [1, 2, 3] 5 hwf rfl
      (by decide) (by decide) (by decide)⟩

/-- C6 fails for every empty buffer: `begin()` is then the default iterator
with a null `buff_`, and `b + min(size, new_capacity)` calls `buff_->incr`. -/
theorem set_capacity_empty_faults (b : circular_buffer α) (n : Nat)
    (hs : b.size_ = 0) (hn : n ≠ b.capacity_) : set_capacity b n = .error .null_buffer := by
  unfold set_capacity begin
  rw [if_neg hn, if_pos hs]
  rfl

/-- C6 at the default-constructed buffer: `set_capacity(3)` reads through the
null `buff_` of `begin()`. -/
theorem set_capacity_empty_faults_witness :
    (empty_zero : circular_buffer Nat).size_ = 0 ∧
    3 ≠ (empty_zero : circular_buffer Nat).capacity_ ∧
    create 0 = .ok (empty_zero : circular_buffer Nat) ∧
    set_capacity (empty_zero : circular_buffer Nat) 3 = .error .null_buffer :=
  ⟨rfl, by decide, rfl, set_capacity_empty_faults empty_zero 3 rfl (by decide)⟩

end circular_buffer
namespace circular_buffer
open circular_buffer_details
variable {α : Type}

/-! ## Copy and move construction -/

theorem copy_loop_ring (s c f : Nat) (mem : List (Option α)) (xs : List α)
    (self : circular_buffer α) (hsb : self.buffer_ = some 0) (hse : self.end_ = some (c : Int))
    (hs : s < c) (hl : xs.length = s)
    (hxs : ∀ j, j < s → mem[(f + j) % c]? = Option.map some xs[j]?) :
    ∀ (d j fuel : Nat) (newmem : List (Option α)), j + d = s → d < fuel →
      newmem.length = c →
      ∃ newmem1, copy_loop (ring s c f mem) self fuel (some (((f + j) % c : Nat) : Int))
          (some (j : Int)) newmem = .ok (some (s : Int), newmem1) ∧
        newmem1.length = c ∧
        (∀ i, i < d → newmem1[j + i]? = Option.map some xs[j + i]?) ∧
        (∀ i, i < j → newmem1[i]? = newmem[i]?) := by
  intro d
  induction d with
  | zero =>
    intro j fuel newmem hj hfuel hlen
    obtain ⟨fuel, rfl⟩ : ∃ k, fuel = k + 1 := ⟨fuel - 1, by omega⟩
    have : j = s := by omega
    subst this
    refine ⟨newmem, ?_, hlen, fun i hi => absurd hi (Nat.not_lt_zero _), fun i _ => rfl⟩
    simp [copy_loop, ring]
  | succ d ih =>
    intro j fuel newmem hj hfuel hlen
    obtain ⟨fuel, rfl⟩ : ∃ k, fuel = k + 1 := ⟨fuel - 1, by omega⟩
    have hjs : j < s := by omega
    have hc : 0 < c := by omega
    have hjl : j < xs.length := by omega
    have hne : (some (((f + j) % c : Nat) : Int) : pointer) ≠ (ring s c f mem).last_ := by
      intro h
      simp only [ring, Option.some.injEq, Nat.cast_inj] at h
      have := slot_inj (by omega) hs h
      omega
    have h1 : load (ring s c f mem).mem (some (((f + j) % c : Nat) : Int)) = .ok xs[j] := by
      rw [load_ok_iff]
      show mem[(f + j) % c]? = _
      rw [hxs j hjs, List.getElem?_eq_getElem hjl]; rfl
    have h2 := construct_nat newmem j xs[j] (by omega)
    have h3 := next_nat (ring s c f mem) c ((f + j) % c) rfl rfl (Nat.mod_lt _ hc)
    rw [slot_succ] at h3
    have h4 := next_nat self c j hsb hse (by omega)
    rw [Nat.mod_eq_of_lt (show j + 1 < c by omega)] at h4
    obtain ⟨newmem1, hcopy, hlen1, hfill, hkeep⟩ :=
      ih (j + 1) fuel (newmem.set j (some xs[j])) (by omega) (by omega) (by simpa using hlen)
    refine ⟨newmem1, ?_, hlen1, fun i hi => ?_, fun i hi => ?_⟩
    · simp only [copy_loop, if_neg hne, h1, h2, h3, h4]
      exact hcopy
    · cases i with
      | zero =>
        rw [Nat.add_zero, hkeep j (by omega), set_same _ _ _ (by omega),
          List.getElem?_eq_getElem hjl]
        rfl
      | succ i =>
        have := hfill i (by omega)
        rw [show j + (i + 1) = j + 1 + i by omega]
        exact this
    · rw [hkeep i (by omega), set_other _ _ _ _ (by omega)]

/-- Copy construction where the code gets it right: for a well-formed source
that is not full (or has capacity 0), the copy has the source's capacity and
size, `first_` at the start of its own region, and the same elements. -/
theorem copy_construction_not_full (b : circular_buffer α) (xs : List α)
    (hwf : wf b) (hxs : contents b = .ok xs)
    (hnf : b.size_ < b.capacity_ ∨ b.capacity_ = 0) :
    ∃ b1, copy_of b = .ok b1 ∧ b1.capacity_ = b.capacity_ ∧ b1.size_ = b.size_ ∧
      b1.first_ = b1.buffer_ ∧ contents b1 = .ok xs ∧ wf b1 ∧
      ∀ k, k < b.size_ → element_at b1 k = element_at b k := by
  rcases Nat.eq_zero_or_pos b.capacity_ with hc | hc
  · have hb := wf_zero b hwf hc
    rw [hb] at hxs ⊢
    refine ⟨empty_zero, rfl, rfl, rfl, rfl, hxs, ?_, fun k hk => absurd hk (Nat.not_lt_zero _)⟩
    rw [hb] at hwf; exact hwf
  · have hs : b.size_ < b.capacity_ := by omega
    obtain ⟨f, hf, hb, hlen, hsc, hlive⟩ := wf_pos b hwf hc
    generalize b.size_ = s at *
    generalize b.capacity_ = c at *
    generalize b.mem = mem at *
    subst hb
    have hxs0 := hxs
    rw [contents_ring_iff_get s c f mem xs hf hsc] at hxs
    obtain ⟨newmem, hcopy, hlen1, hfill, -⟩ :=
      copy_loop_ring s c f mem xs
        ⟨s, c, some 0, some (c : Int), some 0, some 0, List.replicate c none⟩
        rfl rfl hs hxs.1 hxs.2 s 0 (c + 1) (List.replicate c none) (by omega) (by omega)
        (by simp)
    simp only [Nat.add_zero, Nat.mod_eq_of_lt hf] at hcopy
    have hcont : contents (ring s c 0 newmem) = .ok xs := by
      have := contents_new_ring s c newmem xs hsc hc (by omega)
        (fun i hi => by simpa using hfill i hi)
      rwa [List.take_of_length_le (by omega)] at this
    have hres : copy_of (ring s c f mem) = .ok (ring s c 0 newmem) := by
      unfold copy_of initialize_buffer allocate padd
      simp only [ring, if_neg (Nat.pos_iff_ne_zero.mp hc), bind, Except.bind, pure,
        Except.pure] at hcopy ⊢
      simp only [Int.zero_add, Nat.cast_zero] at hcopy ⊢
      rw [hcopy]
      simp [Nat.mod_eq_of_lt hs]
    refine ⟨_, hres, rfl, rfl, rfl, hcont,
      wf_ring_of_contents _ _ _ _ _ hc hsc hlen1 hcont, fun k hk => ?_⟩
    obtain ⟨v, hv⟩ := hlive k hk
    have hkl : k < xs.length := by omega
    have hxk : xs[k]? = some xs[k] := List.getElem?_eq_getElem hkl
    have e1 : element_at (ring s c f mem) k = .ok xs[k] := by
      rw [element_at_ring s c f mem k hf (by omega), load_ok_iff, hxs.2 k hk, hxk]; rfl
    have e2 : element_at (ring s c 0 newmem) k = .ok xs[k] := by
      rw [element_at_ring s c 0 newmem k hc (by omega), load_ok_iff, Nat.zero_add,
        Nat.mod_eq_of_lt (by omega)]
      have := hfill k hk
      rw [Nat.zero_add] at this
      rw [this, hxk]; rfl
    rw [e1, e2]

end circular_buffer
namespace circular_buffer
open circular_buffer_details
variable {α : Type}

/-- Instance of `copy_construction_not_full` at `[3,4]` in capacity 3, window from slot 2. -/
theorem copy_construction_not_full_witness :
    wf (ring 2 3 2 [some 4, none, some 3]) ∧
    contents (ring 2 3 2 [some 4, none, some 3]) = .ok [3, 4] ∧
    ∃ b1, copy_of (ring 2 3 2 [some 4, none, some 3]) = .ok b1 ∧ b1.capacity_ = 3 ∧
      b1.size_ = 2 ∧ b1.first_ = b1.buffer_ ∧ contents b1 = .ok [3, 4] ∧ wf b1 ∧
      ∀ k, k < 2 → element_at b1 k = element_at (ring 2 3 2 [some 4, none, some 3]) k :=
  have hwf : wf (ring 2 3 2 [some 4, none, some 3]) :=
    wf_ring_of_contents 2 3 2 _ [3, 4] (by decide) (by decide) rfl rfl
  ⟨hwf, rfl,
    copy_construction_not_full (ring 2 3 2 [some 4, none, some 3]) [3, 4] hwf rfl
      (Or.inl (by decide))⟩

/-- C7 fails for every full source: `first_ == last_` there, so the loop
`for (; it != cb.last_; ...)` copies nothing; the copy reports the source's
size over a region of unconstructed slots, and no `element_at` of it reads
an element. -/
theorem copy_of_full (b : circular_buffer α) (hwf : wf b) (hc : 0 < b.capacity_)
    (hs : b.size_ = b.capacity_) :
    ∃ b1, copy_of b = .ok b1 ∧ b1.size_ = b.size_ ∧ b1.capacity_ = b.capacity_ ∧
      b1.mem = List.replicate b.capacity_ none ∧
      (∀ k, k < b.size_ → ∃ v, element_at b k = .ok v) ∧
      (∀ k, k < b.size_ → element_at b1 k = .error .unconstructed) := by
  obtain ⟨f, hf, hb, hlen, hsc, hlive⟩ := wf_pos b hwf hc
  generalize b.size_ = s at *
  generalize b.capacity_ = c at *
  generalize b.mem = mem at *
  subst hs
  subst hb
  have e1 : (f + s) % s = f := by rw [Nat.add_mod_right, Nat.mod_eq_of_lt hf]
  have hres : copy_of (ring s s f mem) = .ok (ring s s 0 (List.replicate s none)) := by
    unfold copy_of initialize_buffer allocate padd
    simp only [ring, if_neg (Nat.pos_iff_ne_zero.mp hc), bind, Except.bind, pure,
      Except.pure, copy_loop, e1, if_true]
    simp
  refine ⟨_, hres, rfl, rfl, rfl, fun k hk => ?_, fun k hk => ?_⟩
  · obtain ⟨v, hv⟩ := hlive k hk
    exact ⟨v, by rw [element_at_ring s s f mem k hf (by omega), load_ok_iff]; exact hv⟩
  · rw [element_at_ring s s 0 _ k hc (by omega), Nat.zero_add, Nat.mod_eq_of_lt hk]
    unfold load
    have : (0 : Int) ≤ k ∧ (k : Int) < (List.replicate s (none : Option α)).length := by
      simp; omega
    simp only [this, and_self, if_true, Int.toNat_ofNat, List.get?_eq_getElem?,
      List.getElem?_replicate, if_pos hk]

/-- C7 at the full buffer `[2,3,4]` of capacity 3: the copy has size 3 and
three unconstructed slots. -/
theorem copy_of_full_witness :
    wf (ring 3 3 1 [some 4, some 2, some 3]) ∧
    contents (ring 3 3 1 [some 4, some 2, some 3]) = .ok [2, 3, 4] ∧
    ∃ b1, copy_of (ring 3 3 1 [some 4, some 2, some 3]) = .ok b1 ∧ b1.size_ = 3 ∧
      b1.capacity_ = 3 ∧ b1.mem = [none, none, none] ∧
      (∀ k, k < 3 → ∃ v, element_at (ring 3 3 1 [some 4, some 2, some 3]) k = .ok v) ∧
      (∀ k, k < 3 → element_at b1 k = .error .unconstructed) :=
  have hwf : wf (ring 3 3 1 [some 4, some 2, some 3]) :=
    wf_ring_of_contents 3 3 1 _ [2, 3, 4] (by decide) (by decide) rfl rfl
  ⟨hwf, rfl, copy_of_full (ring 3 3 1 [some 4, some 2, some 3]) hwf (by decide) rfl⟩

/-- C8 fails: after `b2 = move-of(b1)`, `b2` has `b1`'s size, capacity, `end_`
and `last_`, but its `first_` and `buffer_` are null and the storage stays
with `b1`, whose `last_` is its old `first_`.  For the buffer `[2,3,4]` of
capacity 3 no element of `b2` can be read, and `b1` keeps a non-null
`buffer_` with `first_ != last_`. -/
theorem move_of_result :
    (∀ b : circular_buffer α, move_of b =
      (⟨b.size_, b.capacity_, none, b.end_, none, b.last_, []⟩,
       ⟨0, 0, b.buffer_, none, none, b.first_, b.mem⟩)) ∧
    (∃ r : circular_buffer Nat × circular_buffer Nat,
      move_of (ring 3 3 1 [some 4, some 2, some 3]) = r ∧
      contents (ring 3 3 1 [some 4, some 2, some 3]) = .ok [2, 3, 4] ∧
      r.1.size_ = 3 ∧ r.1.capacity_ = 3 ∧
      r.1.first_ ≠ (ring 3 3 1 [some 4, some 2, some 3]).first_ ∧
      r.1.buffer_ = none ∧ r.1.mem = [] ∧
      element_at r.1 0 = .error .null_pointer ∧
      r.2.size_ = 0 ∧ r.2.capacity_ = 0 ∧ r.2.buffer_ = some 0 ∧
      r.2.mem = [some 4, some 2, some 3] ∧ r.2.first_ ≠ r.2.last_) :=
  ⟨fun _ => rfl, _, rfl, rfl, rfl, rfl, by decide, rfl, rfl, rfl, rfl, rfl, rfl, rfl,
    by decide⟩

end circular_buffer
namespace circular_buffer
open circular_buffer_details
variable {α : Type}

/-! ## The fuel of `copy` is never what stops it -/

theorem load_ne_diverges (mem : List (Option α)) (p : pointer) :
    load mem p ≠ .error .diverges := by
  unfold load
  intro h
  split at h
  · cases h
  · split at h
    · split at h <;> cases h
    · cases h

theorem padd_ne_diverges (p : pointer) (k : Int) : padd p k ≠ .error .diverges := by
  unfold padd
  intro h
  split at h
  · cases h
  · split at h <;> cases h

theorem next_ne_diverges (b : circular_buffer α) (p : pointer) :
    next b p ≠ .error .diverges := by
  unfold next
  cases hp : padd p 1 with
  | error err =>
    intro h
    simp only [bind, Except.bind] at h
    exact padd_ne_diverges p 1 (by rw [hp, Except.error.inj h])
  | ok q =>
    simp only [bind, Except.bind, pure, Except.pure]
    intro h
    split at h <;> cases h

theorem inc_ne_diverges (it : iterator α) : it.inc ≠ .error .diverges := by
  unfold iterator.inc
  intro h
  split at h
  · cases h
  · rename_i b _
    cases hn : b.next it.ptr_ with
    | error err =>
      rw [hn] at h
      simp only at h
      exact next_ne_diverges b it.ptr_ (by rw [hn, Except.error.inj h])
    | ok q => rw [hn] at h; cases h

theorem deref_ne_diverges (it : iterator α) : it.deref ≠ .error .diverges := by
  unfold iterator.deref
  split
  · intro h; cases h
  · split
    · intro h; cases h
    · exact load_ne_diverges _ _

theorem copy_fuel_suffices (fuel : Nat) :
    ∀ (bg e : iterator α) (o : Int) (newmem : List (Option α)), 0 < fuel →
      (newmem.length : Int) - o < fuel →
      copy fuel bg e (some o) newmem ≠ .error .diverges := by
  induction fuel with
  | zero => intro _ _ _ _ h; exact absurd h (Nat.lt_irrefl _)
  | succ k ih =>
    intro bg e o newmem _ hlen
    unfold copy
    split
    · cases hd : bg.deref with
      | error err =>
        simp only
        intro h
        exact deref_ne_diverges bg (by rw [hd, Except.error.inj h])
      | ok v =>
        simp only
        unfold construct
        by_cases hr : 0 ≤ o ∧ o < newmem.length
        · simp only [hr, and_self, if_true]
          cases hi : bg.inc with
          | error err =>
            simp only
            intro h
            exact inc_ne_diverges bg (by rw [hi, Except.error.inj h])
          | ok it1 =>
            simp only [padd]
            exact ih it1 e (o + 1) _ (by omega) (by simp; omega)
        · simp only [hr, if_false]
          intro h; cases h
    · intro h; cases h

end circular_buffer
namespace circular_buffer
open circular_buffer_details
variable {α : Type}

/-! ## The full buffer: `begin() + 0` is the end sentinel -/

theorem add_zero_ring_full (c f : Nat) (mem : List (Option α)) (hf : f < c) :
    iterator.add { buff_ := some (ring c c f mem), ptr_ := some (f : Int) } ((0 : Nat) : Int) =
      .ok { buff_ := some (ring c c f mem), ptr_ := none } := by
  have h1 := incr_nat (ring c c f mem) c f 0 rfl rfl hf (Nat.zero_le _)
  have e1 : (f + 0) % c = (f + c) % c := by
    rw [Nat.add_zero, Nat.add_mod_right]
  unfold iterator.add iterator.add_assign
  simp only [ge_iff_le, Int.ofNat_zero_le, if_true, h1]
  simp only [ring, e1, if_true]

/-- C10 fails on every full buffer at offset 0: `operator+=` leaves `ptr_`
at `first_`, which equals `last_` there, and so turns it into the end
sentinel; dereferencing it reads through nullptr although `element_at(0)`
is a live element. -/
theorem begin_plus_zero_full (b : circular_buffer α) (hwf : wf b) (hc : 0 < b.capacity_)
    (hs : b.size_ = b.capacity_) :
    b.begin.add ((0 : Nat) : Int) = .ok b.end_iter ∧ b.end_iter.ptr_ = none ∧
      b.end_iter.deref = .error .null_pointer ∧ ∃ v, element_at b 0 = .ok v := by
  obtain ⟨f, hf, hb, hlen, hsc, hlive⟩ := wf_pos b hwf hc
  generalize b.size_ = s at *
  generalize b.capacity_ = c at *
  generalize b.mem = mem at *
  subst hs
  subst hb
  rw [begin_ring s s f mem (by omega), end_iter_ring s s f mem (by omega)]
  refine ⟨add_zero_ring_full s f mem hf, rfl, rfl, ?_⟩
  obtain ⟨v, hv⟩ := hlive 0 hc
  exact ⟨v, by rw [element_at_ring s s f mem 0 hf (by omega), load_ok_iff]; exact hv⟩

/-- C10 at capacity 1 holding `[7]`, the state after `create(1)` and
`push_back(7)`: `begin() + 0` is `end()`, while `element_at(0)` is 7. -/
theorem begin_plus_zero_full_witness :
    (∃ b0 : circular_buffer Nat, create 1 = .ok b0 ∧
      push_back b0 7 = .ok (ring 1 1 0 [some 7])) ∧
    element_at (ring 1 1 0 [some 7]) 0 = .ok 7 ∧
    (ring 1 1 0 [some 7]).begin.add ((0 : Nat) : Int) = .ok (ring 1 1 0 [some 7]).end_iter ∧
    (ring 1 1 0 [some 7]).end_iter.ptr_ = none ∧
    (ring 1 1 0 [some 7]).end_iter.deref = .error .null_pointer ∧
    ∃ v, element_at (ring 1 1 0 [some 7]) 0 = .ok v :=
  ⟨⟨_, rfl, rfl⟩, rfl,
    begin_plus_zero_full (ring 1 1 0 [some 7])
      (wf_ring_of_contents 1 1 0 _ [7] (by decide) (by decide) rfl rfl) (by decide) rfl⟩

/-- C4 fails for `new_capacity = 0` on every full buffer: `begin() + 0` is the
end sentinel there, so `copy` sets out to copy every element into the empty
new region and `set_capacity(0)` writes through nullptr. -/
theorem shrink_full_to_zero_faults (b : circular_buffer α) (hwf : wf b)
    (hc : 0 < b.capacity_) (hs : b.size_ = b.capacity_) :
    set_capacity b 0 = .error .null_pointer := by
  obtain ⟨f, hf, hb, hlen, hsc, hlive⟩ := wf_pos b hwf hc
  generalize b.size_ = s at *
  generalize b.capacity_ = c at *
  generalize b.mem = mem at *
  subst hs
  subst hb
  obtain ⟨v, hv⟩ := hlive 0 hc
  rw [Nat.add_zero, Nat.mod_eq_of_lt hf] at hv
  have hload : load mem (some (f : Int)) = .ok v := (load_ok_iff mem f v).mpr hv
  have hadd := add_zero_ring_full s f mem hf
  unfold set_capacity
  rw [if_neg (by simp [ring]; omega), begin_ring s s f mem (by omega)]
  have hsz : (ring s s f mem).size_ = s := rfl
  simp only [allocate, if_true, bind, Except.bind, hsz, Nat.min_zero]
  rw [hadd]
  simp only [copy, iterator.ne, iterator.eq, iterator.deref, reduceCtorEq, decide_False,
    Bool.not_false, if_true]
  have hm : (ring s s f mem).mem = mem := rfl
  simp only [hm, hload, construct]

/-- C4 at capacity 1 holding `[7]`, the state after `create(1)` and
`push_back(7)`: `set_capacity(0)` with `0 < size` writes through nullptr. -/
theorem shrink_full_to_zero_faults_witness :
    (∃ b0 : circular_buffer Nat, create 1 = .ok b0 ∧
      push_back b0 7 = .ok (ring 1 1 0 [some 7])) ∧
    contents (ring 1 1 0 [some 7]) = .ok [7] ∧
    0 < (ring 1 1 0 [some 7]).size_ ∧
    set_capacity (ring 1 1 0 [some 7]) 0 = .error .null_pointer :=
  ⟨⟨_, rfl, rfl⟩, rfl, by decide,
    shrink_full_to_zero_faults (ring 1 1 0 [some 7])
      (wf_ring_of_contents 1 1 0 _ [7] (by decide) (by decide) rfl rfl) (by decide) rfl⟩

end circular_buffer
namespace circular_buffer
open circular_buffer_details
variable {α : Type}

/-! ## `front`, `back`, and undoing a push -/

theorem back_ring (s c f : Nat) (mem : List (Option α)) (hs : s ≠ 0) (hc : 0 < c) :
    back (ring s c f mem) = load mem (some (((f + (s - 1)) % c : Nat) : Int)) := by
  have h1 := prev_nat (ring s c f mem) c ((f + s) % c) rfl rfl (Nat.mod_lt _ hc)
  rw [slot_pred c f s hc (by omega)] at h1
  unfold back
  rw [if_neg (by simpa [ring] using hs)]
  simp only [ring] at h1 ⊢
  rw [h1]

/-- C12: on a well-formed buffer with `size != 0`, `front()` reads the same
element as `element_at(0)` and `back()` the same as `element_at(size - 1)`. -/
theorem front_back_access (b : circular_buffer α) (hwf : wf b) (hs : b.size_ ≠ 0) :
    ∃ v w, front b = .ok v ∧ element_at b 0 = .ok v ∧
      back b = .ok w ∧ element_at b (b.size_ - 1) = .ok w := by
  have hc : 0 < b.capacity_ := by have := hwf.2.1; omega
  obtain ⟨f, hf, hb, hlen, hsc, hlive⟩ := wf_pos b hwf hc
  generalize b.size_ = s at *
  generalize b.capacity_ = c at *
  generalize b.mem = mem at *
  subst hb
  obtain ⟨v, hv⟩ := hlive 0 (by omega)
  obtain ⟨w, hw⟩ := hlive (s - 1) (by omega)
  refine ⟨v, w, ?_, ?_, ?_, ?_⟩
  · unfold front
    rw [if_neg (by simpa [ring] using hs)]
    rw [Nat.add_zero, Nat.mod_eq_of_lt hf] at hv
    exact (load_ok_iff mem f v).mpr hv
  · rw [element_at_ring s c f mem 0 hf (by omega), load_ok_iff]; exact hv
  · rw [back_ring s c f mem hs hc]
    exact (load_ok_iff mem _ w).mpr hw
  · rw [element_at_ring s c f mem (s - 1) hf (by omega), load_ok_iff]; exact hw

/-- C12 at the full buffer `[2,3,4]` of capacity 3 whose window starts at
slot 1, so that `last_` sits at slot 1 and the newest element at slot 0. -/
theorem front_back_access_witness :
    wf (ring 3 3 1 [some 4, some 2, some 3]) ∧
    ∃ v w, front (ring 3 3 1 [some 4, some 2, some 3]) = .ok v ∧
      element_at (ring 3 3 1 [some 4, some 2, some 3]) 0 = .ok v ∧
      back (ring 3 3 1 [some 4, some 2, some 3]) = .ok w ∧
      element_at (ring 3 3 1 [some 4, some 2, some 3])
        ((ring 3 3 1 [some 4, some 2, some 3]).size_ - 1) = .ok w :=
  have hwf : wf (ring 3 3 1 [some 4, some 2, some 3]) :=
    wf_ring_of_contents 3 3 1 _ [2, 3, 4] (by decide) (by decide) rfl rfl
  ⟨hwf, front_back_access (ring 3 3 1 [some 4, some 2, some 3]) hwf (by decide)⟩

theorem set_set_none (mem : List (Option α)) (k : Nat) (o : Option α) :
    (mem.set k o).set k none = mem.set k none := by
  simp

theorem set_none_self (mem : List (Option α)) (k : Nat) (h : mem[k]? = some none) :
    mem.set k none = mem := by
  apply List.ext_getElem?
  intro i
  by_cases hik : k = i
  · subst hik
    have hk : k < mem.length := by
      by_contra hn
      rw [List.getElem?_eq_none (by omega)] at h
      cases h
    rw [set_same _ _ _ hk, h]
  · rw [set_other _ _ _ _ hik]

/-- C13: on a well-formed buffer with `capacity > 0` and `size < capacity`,
`push_back(x)` followed by `pop_back()` succeeds and gives back the size,
the capacity, every pointer and the logical contents; the whole state is the
prior one when the slot at `last_` held no object before. -/
theorem push_back_pop_back (b : circular_buffer α) (x : α) (hwf : wf b)
    (hc : 0 < b.capacity_) (hs : b.size_ < b.capacity_) :
    ∃ b1 b2, push_back b x = .ok b1 ∧ pop_back b1 = .ok b2 ∧
      b2.size_ = b.size_ ∧ b2.capacity_ = b.capacity_ ∧
      b2.first_ = b.first_ ∧ b2.last_ = b.last_ ∧
      b2.buffer_ = b.buffer_ ∧ b2.end_ = b.end_ ∧
      contents b2 = contents b ∧
      (∀ l : Nat, b.last_ = some (l : Int) → b.mem[l]? = some none → b2 = b) := by
  obtain ⟨xs, hxs⟩ := wf_contents b hwf
  obtain ⟨b1, h1, hc1, hs1, hcap1, hwf1⟩ := push_back_contents_lt b x xs hwf hxs hs
  obtain ⟨b2, h2, hc2, -, -, -⟩ := pop_back_contents b1 (xs ++ [x]) hwf1 hc1 (by omega)
  rw [List.dropLast_concat] at hc2
  refine ⟨b1, b2, h1, h2, ?_⟩
  obtain ⟨f, hf, hb, hlen, hsc, hlive⟩ := wf_pos b hwf hc
  generalize b.size_ = s at *
  generalize b.capacity_ = c at *
  generalize b.mem = mem at *
  subst hb
  rw [push_back_ring_lt s c f mem x hs hlen] at h1
  have h1e : b1 = ring (s + 1) c f (mem.set ((f + s) % c) (some x)) := (Except.ok.inj h1).symm
  subst h1e
  have hv : (mem.set ((f + s) % c) (some x))[(f + (s + 1 - 1)) % c]? = some (some x) := by
    rw [Nat.add_sub_cancel]
    exact set_same _ _ _ (by rw [hlen]; exact Nat.mod_lt _ hc)
  rw [pop_back_ring (s + 1) c f _ x (by omega) hc hv] at h2
  have h2e : b2 = ring s c f (mem.set ((f + s) % c) none) := by
    rw [← Except.ok.inj h2]
    simp only [Nat.add_sub_cancel, set_set_none]
  subst h2e
  refine ⟨rfl, rfl, rfl, rfl, rfl, rfl, by rw [hc2, hxs], fun l hl hnone => ?_⟩
  simp only [ring, Option.some.injEq, Nat.cast_inj] at hl
  subst hl
  show ring s c f (mem.set ((f + s) % c) none) = ring s c f mem
  rw [set_none_self mem _ hnone]

/-- C13 at `[3,4]` in capacity 3 with the window from slot 2, the free slot
being slot 1. -/
theorem push_back_pop_back_witness :
    wf (ring 2 3 2 [some 4, none, some 3]) ∧
    ∃ b1 b2, push_back (ring 2 3 2 [some 4, none, some 3]) 9 = .ok b1 ∧
      pop_back b1 = .ok b2 ∧
      b2.size_ = (ring 2 3 2 [some 4, none, some 3]).size_ ∧
      b2.capacity_ = (ring 2 3 2 [some 4, none, some 3]).capacity_ ∧
      b2.first_ = (ring 2 3 2 [some 4, none, some 3]).first_ ∧
      b2.last_ = (ring 2 3 2 [some 4, none, some 3]).last_ ∧
      b2.buffer_ = (ring 2 3 2 [some 4, none, some 3]).buffer_ ∧
      b2.end_ = (ring 2 3 2 [some 4, none, some 3]).end_ ∧
      contents b2 = contents (ring 2 3 2 [some 4, none, some 3]) ∧
      (∀ l : Nat, (ring 2 3 2 [some 4, none, some 3]).last_ = some (l : Int) →
        (ring 2 3 2 [some 4, none, some 3]).mem[l]? = some none →
        b2 = ring 2 3 2 [some 4, none, some 3]) :=
  have hwf : wf (ring 2 3 2 [some 4, none, some 3]) :=
    wf_ring_of_contents 2 3 2 _ [3, 4] (by decide) (by decide) rfl rfl
  ⟨hwf, push_back_pop_back (ring 2 3 2 [some 4, none, some 3]) 9 hwf (by decide) (by decide)⟩

end circular_buffer
namespace circular_buffer
open circular_buffer_details
variable {α : Type}

/-! ## Bulk movement against single steps -/

theorem decr_nat (b : circular_buffer α) (c p d : Nat) (hc : b.capacity_ = c)
    (hb : b.buffer_ = some 0) (hp : p < c) (hd : d ≤ c) :
    decr b (some (p : Int)) (d : Int) = .ok (some (((p + c - d) % c : Nat) : Int)) := by
  unfold decr pdiff padd
  simp only [hb, hc, bind, Except.bind]
  rw [mod_wrap (by omega)]
  split_ifs <;> simp only [Except.ok.injEq, Option.some.injEq] <;> omega

theorem next_times (b : circular_buffer α) (c : Nat) (hb : b.buffer_ = some 0)
    (he : b.end_ = some (c : Int)) (d : Nat) :
    ∀ p, p < c →
      step_times (next b) d (some (p : Int)) = .ok (some (((p + d) % c : Nat) : Int)) := by
  induction d with
  | zero => intro p hp; rw [Nat.add_zero, Nat.mod_eq_of_lt hp]; rfl
  | succ d ih =>
    intro p hp
    have hc : 0 < c := by omega
    simp only [step_times, next_nat b c p hb he hp]
    rw [ih _ (Nat.mod_lt _ hc), Nat.mod_add_mod]
    congr 4
    omega

theorem prev_times (b : circular_buffer α) (c : Nat) (hb : b.buffer_ = some 0)
    (he : b.end_ = some (c : Int)) (d : Nat) :
    ∀ p, p < c → d ≤ c →
      step_times (prev b) d (some (p : Int)) = .ok (some (((p + c - d) % c : Nat) : Int)) := by
  induction d with
  | zero =>
    intro p hp _
    rw [Nat.sub_zero, Nat.add_mod_right, Nat.mod_eq_of_lt hp]; rfl
  | succ d ih =>
    intro p hp hd
    have hc : 0 < c := by omega
    simp only [step_times, prev_nat b c p hb he hp]
    rw [ih _ (Nat.mod_lt _ hc) (by omega)]
    congr 3
    rw [show (p + c - 1) % c + c - d = (p + c - 1) % c + (c - d) by omega, Nat.mod_add_mod,
      show p + c - 1 + (c - d) = p + c - (d + 1) + c by omega, Nat.add_mod_right]

theorem int_sub_emod (p c d : Nat) (hd : d ≤ c) :
    ((p : Int) - (d : Int)) % (c : Int) = (((p + c - d) % c : Nat) : Int) := by
  rw [Int.natCast_mod, Nat.cast_sub (by omega), Nat.cast_add]
  rw [show (p : Int) + (c : Int) - (d : Int) = (p : Int) - (d : Int) + (c : Int) by ring]
  rw [Int.add_emod_self]

/-- C19: in a well-formed buffer with `capacity > 0`, for a slot `p` of the
region and `0 <= delta <= capacity`, `incr(p, delta)` equals `delta`
applications of `next`, namely `(p + delta) mod capacity`, and
`decr(p, delta)` equals `delta` applications of `prev`, namely
`(p - delta) mod capacity`; both results are slots of the region. -/
theorem bulk_movement (b : circular_buffer α) (p d : Nat) (hwf : wf b)
    (hc : 0 < b.capacity_) (hp : p < b.capacity_) (hd : d ≤ b.capacity_) :
    incr b (some (p : Int)) (d : Int) =
        .ok (some (((p + d) % b.capacity_ : Nat) : Int)) ∧
    step_times (next b) d (some (p : Int)) = incr b (some (p : Int)) (d : Int) ∧
    decr b (some (p : Int)) (d : Int) =
        .ok (some (((p : Int) - (d : Int)) % (b.capacity_ : Int))) ∧
    step_times (prev b) d (some (p : Int)) = decr b (some (p : Int)) (d : Int) ∧
    (p + d) % b.capacity_ < b.capacity_ ∧
    0 ≤ ((p : Int) - (d : Int)) % (b.capacity_ : Int) ∧
    ((p : Int) - (d : Int)) % (b.capacity_ : Int) < (b.capacity_ : Int) := by
  obtain ⟨hb, he, -⟩ := hwf.2.2.2 hc
  have h1 := incr_nat b b.capacity_ p d rfl he hp hd
  have h2 := next_times b b.capacity_ hb he d p hp
  have h3 := decr_nat b b.capacity_ p d rfl hb hp hd
  have h4 := prev_times b b.capacity_ hb he d p hp hd
  have h5 := int_sub_emod p b.capacity_ d hd
  refine ⟨h1, by rw [h1, h2], by rw [h3, h5], by rw [h3, h4], Nat.mod_lt _ hc, ?_, ?_⟩
  · exact Int.emod_nonneg _ (by omega)
  · exact Int.emod_lt_of_pos _ (by omega)

/-- C19 in the buffer `[2,3,4]` of capacity 3, from slot 1 by 2 (forward
wraps to slot 0, backward wraps to slot 2). -/
theorem bulk_movement_witness :
    wf (ring 3 3 1 [some 4, some 2, some 3]) ∧
    incr (ring 3 3 1 [some 4, some 2, some 3]) (some ((1 : Nat) : Int)) ((2 : Nat) : Int) =
      .ok (some 0) ∧
    decr (ring 3 3 1 [some 4, some 2, some 3]) (some ((1 : Nat) : Int)) ((2 : Nat) : Int) =
      .ok (some 2) ∧
    step_times (next (ring 3 3 1 [some 4, some 2, some 3])) 2 (some ((1 : Nat) : Int)) =
      incr (ring 3 3 1 [some 4, some 2, some 3]) (some ((1 : Nat) : Int)) ((2 : Nat) : Int) ∧
    step_times (prev (ring 3 3 1 [some 4, some 2, some 3])) 2 (some ((1 : Nat) : Int)) =
      decr (ring 3 3 1 [some 4, some 2, some 3]) (some ((1 : Nat) : Int)) ((2 : Nat) : Int) :=
  have hwf : wf (ring 3 3 1 [some 4, some 2, some 3]) :=
    wf_ring_of_contents 3 3 1 _ [2, 3, 4] (by decide) (by decide) rfl rfl
  have h := bulk_movement (ring 3 3 1 [some 4, some 2, some 3]) 1 2 hwf (by decide)
    (by decide) (by decide)
  ⟨hwf, rfl, rfl, h.2.1, h.2.2.2.1⟩

end circular_buffer
namespace circular_buffer
open circular_buffer_details
variable {α : Type}

/-! ## Iterators by logical position -/

theorem at_position_ring (s c f i : Nat) (mem : List (Option α)) :
    at_position (ring s c f mem) i =
      { buff_ := some (ring s c f mem), ptr_ := pos_ptr s c f i } := by
  unfold at_position pos_ptr
  simp only [ring, Option.map_some', Int.natCast_mod, Nat.cast_add]

theorem at_position_zero (b : circular_buffer α) (hwf : wf b) (hs : b.size_ ≠ 0) :
    at_position b 0 = b.begin := by
  have hc : 0 < b.capacity_ := by have := hwf.2.1; omega
  obtain ⟨f, hf, hb, -, -, -⟩ := wf_pos b hwf hc
  generalize b.size_ = s at *
  generalize b.capacity_ = c at *
  generalize b.mem = mem at *
  subst hb
  rw [at_position_ring, begin_ring s c f mem hs, pos_ptr_zero s c f hs hf]

theorem at_position_size (b : circular_buffer α) (hs : b.size_ ≠ 0) :
    at_position b b.size_ = b.end_iter := by
  unfold at_position end_iter
  rw [if_pos rfl, if_neg hs]

theorem at_position_inc_times (b : circular_buffer α) (hwf : wf b) (hs : b.size_ ≠ 0)
    (i : Nat) (hi : i ≤ b.size_) : inc_times i b.begin = .ok (at_position b i) := by
  have hc : 0 < b.capacity_ := by have := hwf.2.1; omega
  obtain ⟨f, hf, hb, -, hsc, -⟩ := wf_pos b hwf hc
  generalize b.size_ = s at *
  generalize b.capacity_ = c at *
  generalize b.mem = mem at *
  subst hb
  rw [at_position_ring, begin_ring s c f mem hs, ← pos_ptr_zero s c f hs hf]
  have := inc_times_ring s c f mem hsc i 0 (by omega)
  rwa [Nat.zero_add] at this

theorem linearize_ring (s c f i : Nat) (mem : List (Option α)) (q : pointer)
    (bf : Option (circular_buffer α)) (hf : f < c) (hs : s ≤ c) (hi : i ≤ s) :
    iterator.linearize_pointer { buff_ := some (ring s c f mem), ptr_ := q }
      { buff_ := bf, ptr_ := pos_ptr s c f i } = .ok (some (i : Int)) := by
  unfold iterator.linearize_pointer pos_ptr
  by_cases his : i = s
  · subst his
    simp [ring, padd]
  · simp only [if_neg his, ring, reduceCtorEq, if_false, plt, pdiff, padd]
    rw [mod_wrap (by omega)]
    split_ifs with h1
    · have : ¬ ((f + i : Nat) : Int) < (f : Int) := by omega
      simp only [this, decide_False, Except.ok.injEq, Option.some.injEq]
      omega
    · have : ((f + i - c : Nat) : Int) < (f : Int) := by omega
      simp only [this, decide_True, Except.ok.injEq, Option.some.injEq]
      omega

theorem dec_ring (s c f k : Nat) (mem : List (Option α)) (hk : k < s) (hc : 0 < c) :
    iterator.dec { buff_ := some (ring s c f mem), ptr_ := pos_ptr s c f (k + 1) } =
      .ok { buff_ := some (ring s c f mem), ptr_ := pos_ptr s c f k } := by
  have h1 := prev_nat (ring s c f mem) c ((f + (k + 1)) % c) rfl rfl (Nat.mod_lt _ hc)
  rw [slot_pred c f (k + 1) hc (by omega), Nat.add_sub_cancel] at h1
  unfold iterator.dec pos_ptr
  rw [if_neg (show k ≠ s by omega)]
  by_cases hks : k + 1 = s
  · subst hks
    simp only [if_true]
    simp only [ring] at h1 ⊢
    rw [h1]
  · simp only [if_neg hks, reduceCtorEq, if_false]
    rw [h1]

/-- C20: on a well-formed non-empty buffer, `operator++` at the newest live
element gives `end()`, `operator--` at `end()` gives the iterator at the
newest live element, which dereferences to `back()`, and `--(++it)` is `it`
again for the iterator at every live position. -/
theorem sentinel_transitions (b : circular_buffer α) (hwf : wf b) (hs : b.size_ ≠ 0) :
    (at_position b (b.size_ - 1)).inc = .ok b.end_iter ∧
    b.end_iter.dec = .ok (at_position b (b.size_ - 1)) ∧
    (∃ v, (at_position b (b.size_ - 1)).deref = .ok v ∧ back b = .ok v) ∧
    (∀ k, k < b.size_ → inc_times k b.begin = .ok (at_position b k) ∧
      ∃ it1 it2, (at_position b k).inc = .ok it1 ∧ it1.dec = .ok it2 ∧
        it2 = at_position b k ∧ it2.eq (at_position b k) = true) := by
  have hc : 0 < b.capacity_ := by have := hwf.2.1; omega
  have hinc := at_position_inc_times b hwf hs
  have hend := at_position_size b hs
  obtain ⟨f, hf, hb, hlen, hsc, hlive⟩ := wf_pos b hwf hc
  generalize b.size_ = s at *
  generalize b.capacity_ = c at *
  generalize b.mem = mem at *
  subst hb
  rw [← hend]
  simp only [at_position_ring] at hinc ⊢
  have hss : s - 1 + 1 = s := by omega
  have h1 := inc_ring s c f (s - 1) mem (by omega) hsc
  have h2 := dec_ring s c f (s - 1) mem (by omega) hc
  rw [hss] at h1 h2
  obtain ⟨w, hw⟩ := hlive (s - 1) (by omega)
  have hload := (load_ok_iff mem _ w).mpr hw
  refine ⟨h1, h2, ⟨w, ?_, ?_⟩, fun k hk => ⟨hinc k (by omega), _, _,
    inc_ring s c f k mem hk hsc, dec_ring s c f k mem hk hc, rfl, by simp [iterator.eq]⟩⟩
  · rw [deref_ring s c f (s - 1) mem (by omega)]; exact hload
  · rw [back_ring s c f mem hs hc]; exact hload

/-- C20 at the full buffer `[2,3,4]` of capacity 3 (window from slot 1). -/
theorem sentinel_transitions_witness :
    wf (ring 3 3 1 [some 4, some 2, some 3]) ∧
    (at_position (ring 3 3 1 [some 4, some 2, some 3]) 2).inc =
      .ok (ring 3 3 1 [some 4, some 2, some 3]).end_iter ∧
    (ring 3 3 1 [some 4, some 2, some 3]).end_iter.dec =
      .ok (at_position (ring 3 3 1 [some 4, some 2, some 3]) 2) ∧
    (at_position (ring 3 3 1 [some 4, some 2, some 3]) 2).deref = .ok 4 ∧
    back (ring 3 3 1 [some 4, some 2, some 3]) = .ok 4 ∧
    (∀ k, k < 3 →
      inc_times k (ring 3 3 1 [some 4, some 2, some 3]).begin =
        .ok (at_position (ring 3 3 1 [some 4, some 2, some 3]) k) ∧
      ∃ it1 it2, (at_position (ring 3 3 1 [some 4, some 2, some 3]) k).inc = .ok it1 ∧
        it1.dec = .ok it2 ∧ it2 = at_position (ring 3 3 1 [some 4, some 2, some 3]) k ∧
        it2.eq (at_position (ring 3 3 1 [some 4, some 2, some 3]) k) = true) :=
  have hwf : wf (ring 3 3 1 [some 4, some 2, some 3]) :=
    wf_ring_of_contents 3 3 1 _ [2, 3, 4] (by decide) (by decide) rfl rfl
  have h := sentinel_transitions (ring 3 3 1 [some 4, some 2, some 3]) hwf (by decide)
  ⟨hwf, h.1, h.2.1, rfl, rfl, h.2.2.2⟩

end circular_buffer
namespace circular_buffer
open circular_buffer_details
variable {α : Type}

/-! ## Distance and ordering of iterators -/

theorem sub_ring (s c f i j : Nat) (mem : List (Option α)) (hf : f < c) (hs : s ≤ c)
    (hi : i ≤ s) (hj : j ≤ s) :
    iterator.sub { buff_ := some (ring s c f mem), ptr_ := pos_ptr s c f i }
      { buff_ := some (ring s c f mem), ptr_ := pos_ptr s c f j } =
      .ok ((i : Int) - (j : Int)) := by
  unfold iterator.sub
  rw [linearize_ring s c f i mem _ _ hf hs hi, linearize_ring s c f j mem _ _ hf hs hj]
  rfl

theorem lt_ring (s c f i j : Nat) (mem : List (Option α)) (hf : f < c) (hs : s ≤ c)
    (hi : i ≤ s) (hj : j ≤ s) :
    iterator.lt { buff_ := some (ring s c f mem), ptr_ := pos_ptr s c f i }
      { buff_ := some (ring s c f mem), ptr_ := pos_ptr s c f j } =
      .ok (decide (i < j)) := by
  unfold iterator.lt
  rw [linearize_ring s c f i mem _ _ hf hs hi, linearize_ring s c f j mem _ _ hf hs hj]
  simp [plt]

theorem gt_ring (s c f i j : Nat) (mem : List (Option α)) (hf : f < c) (hs : s ≤ c)
    (hi : i ≤ s) (hj : j ≤ s) :
    iterator.gt { buff_ := some (ring s c f mem), ptr_ := pos_ptr s c f i }
      { buff_ := some (ring s c f mem), ptr_ := pos_ptr s c f j } =
      .ok (decide (j < i)) := by
  unfold iterator.gt
  rw [linearize_ring s c f i mem _ _ hf hs hi, linearize_ring s c f j mem _ _ hf hs hj]
  simp [plt]

theorem pos_ptr_eq_iff (s c f i j : Nat) (hs : s ≤ c) (hi : i ≤ s) (hj : j ≤ s) :
    pos_ptr s c f i = pos_ptr s c f j ↔ i = j := by
  constructor
  · intro h
    by_contra hne
    rcases Nat.lt_or_gt_of_ne hne with hlt | hgt
    · exact pos_ptr_inj s c f i j hlt hj hs h
    · exact pos_ptr_inj s c f j i hgt hi hs h.symm
  · intro h; rw [h]

/-- C11: on a well-formed non-empty buffer, `linearize_pointer` maps the
iterator at logical position `i <= size` (position `size` being `end()`) to
the pointer `i` slots past the storage start, so the difference of the
iterators at positions `i` and `j` is `i - j` and `end() - begin()` is `size`. -/
theorem distance_by_linearization (b : circular_buffer α) (hwf : wf b)
    (hs : b.size_ ≠ 0) :
    b.buffer_ = some 0 ∧ at_position b 0 = b.begin ∧ at_position b b.size_ = b.end_iter ∧
    (∀ i, i ≤ b.size_ → inc_times i b.begin = .ok (at_position b i)) ∧
    (∀ i k, i ≤ b.size_ → k ≤ b.size_ →
      (at_position b k).linearize_pointer (at_position b i) = .ok (some (i : Int))) ∧
    (∀ i j, i ≤ b.size_ → j ≤ b.size_ →
      (at_position b i).sub (at_position b j) = .ok ((i : Int) - (j : Int))) ∧
    b.end_iter.sub b.begin = .ok (b.size_ : Int) := by
  have hc : 0 < b.capacity_ := by have := hwf.2.1; omega
  have hinc := at_position_inc_times b hwf hs
  have hend := at_position_size b hs
  have hbeg := at_position_zero b hwf hs
  obtain ⟨f, hf, hb, hlen, hsc, hlive⟩ := wf_pos b hwf hc
  generalize b.size_ = s at *
  generalize b.capacity_ = c at *
  generalize b.mem = mem at *
  subst hb
  rw [← hend, ← hbeg]
  rw [← hbeg] at hinc
  simp only [at_position_ring] at hinc ⊢
  refine ⟨rfl, trivial, trivial, hinc,
    fun i k hi _ => linearize_ring s c f i mem _ _ hf hsc hi,
    fun i j hi hj => sub_ring s c f i j mem hf hsc hi hj, ?_⟩
  have := sub_ring s c f s 0 mem hf hsc (Nat.le_refl _) (Nat.zero_le _)
  simpa using this

/-- C11 at the full buffer `[2,3,4]` of capacity 3 (window from slot 1):
`end() - begin()` is 3. -/
theorem distance_by_linearization_witness :
    wf (ring 3 3 1 [some 4, some 2, some 3]) ∧
    (ring 3 3 1 [some 4, some 2, some 3]).end_iter.sub
      (ring 3 3 1 [some 4, some 2, some 3]).begin = .ok 3 ∧
    (∀ i j, i ≤ 3 → j ≤ 3 →
      (at_position (ring 3 3 1 [some 4, some 2, some 3]) i).sub
        (at_position (ring 3 3 1 [some 4, some 2, some 3]) j) = .ok ((i : Int) - (j : Int))) :=
  have hwf : wf (ring 3 3 1 [some 4, some 2, some 3]) :=
    wf_ring_of_contents 3 3 1 _ [2, 3, 4] (by decide) (by decide) rfl rfl
  have h := distance_by_linearization (ring 3 3 1 [some 4, some 2, some 3]) hwf (by decide)
  ⟨hwf, h.2.2.2.2.2.2, h.2.2.2.2.2.1⟩

/-- C16: on a well-formed non-empty buffer, for the iterators `a`, `b` at
logical positions `i`, `j <= size`, `a < b` is `i < j` and `a > b` is `i > j`. -/
theorem ordering_by_position (b : circular_buffer α) (hwf : wf b) (hs : b.size_ ≠ 0) :
    ∀ i j, i ≤ b.size_ → j ≤ b.size_ →
      (at_position b i).lt (at_position b j) = .ok (decide (i < j)) ∧
      (at_position b i).gt (at_position b j) = .ok (decide (i > j)) := by
  have hc : 0 < b.capacity_ := by have := hwf.2.1; omega
  obtain ⟨f, hf, hb, hlen, hsc, hlive⟩ := wf_pos b hwf hc
  generalize b.size_ = s at *
  generalize b.capacity_ = c at *
  generalize b.mem = mem at *
  subst hb
  intro i j hi hj
  simp only [at_position_ring]
  exact ⟨lt_ring s c f i j mem hf hsc hi hj, gt_ring s c f i j mem hf hsc hi hj⟩

/-- C16 at the full buffer `[2,3,4]` of capacity 3 whose window starts at
slot 1: position 0 sits at slot 1, position 2 at slot 0, and still the first
is less than the second. -/
theorem ordering_by_position_witness :
    wf (ring 3 3 1 [some 4, some 2, some 3]) ∧
    (at_position (ring 3 3 1 [some 4, some 2, some 3]) 0).ptr_ = some 1 ∧
    (at_position (ring 3 3 1 [some 4, some 2, some 3]) 2).ptr_ = some 0 ∧
    (at_position (ring 3 3 1 [some 4, some 2, some 3]) 0).lt
      (at_position (ring 3 3 1 [some 4, some 2, some 3]) 2) = .ok true ∧
    (at_position (ring 3 3 1 [some 4, some 2, some 3]) 0).gt
      (at_position (ring 3 3 1 [some 4, some 2, some 3]) 2) = .ok false :=
  have hwf : wf (ring 3 3 1 [some 4, some 2, some 3]) :=
    wf_ring_of_contents 3 3 1 _ [2, 3, 4] (by decide) (by decide) rfl rfl
  have h := ordering_by_position (ring 3 3 1 [some 4, some 2, some 3]) hwf (by decide) 0 2
    (by decide) (by decide)
  ⟨hwf, rfl, rfl, h.1, h.2⟩

theorem linearize_congr (x y z : iterator α) (h : y.ptr_ = z.ptr_) :
    x.linearize_pointer y = x.linearize_pointer z := by
  unfold iterator.linearize_pointer
  rw [h]

theorem plt_self (p : pointer) (r : Bool) (h : plt p p = .ok r) : r = false := by
  cases p with
  | none => simp only [plt, Except.ok.injEq] at h; exact h.symm
  | some a => simp only [plt, Except.ok.injEq, lt_self_iff_false, decide_False] at h; exact h.symm

theorem le_of_eq (x y : iterator α) (r : Bool) (heq : x.eq y = true)
    (h : x.le y = .ok r) : r = false := by
  simp only [iterator.eq, decide_eq_true_eq] at heq
  unfold iterator.le at h
  rw [← linearize_congr x x y heq] at h
  cases hl : x.linearize_pointer x with
  | error e => rw [hl] at h; cases h
  | ok a => rw [hl] at h; exact plt_self a r h

/-- C17: `operator<=` returns what `operator<` returns, for every pair of
iterators, and whenever `a == b` a returned `a <= b` is false; on a
well-formed non-empty buffer, for the iterators at logical positions
`i`, `j <= size`, `a <= b` returns `i < j`, so `a <= a` is false and
`a <= b` is false whenever `a == b`. -/
theorem le_is_lt (b : circular_buffer α) (hwf : wf b) (hs : b.size_ ≠ 0) :
    (∀ x y : iterator α, x.le y = x.lt y) ∧
    (∀ (x y : iterator α) (r : Bool), x.eq y = true → x.le y = .ok r → r = false) ∧
    (∀ i j, i ≤ b.size_ → j ≤ b.size_ →
      (at_position b i).le (at_position b j) = .ok (decide (i < j))) ∧
    (∀ i, i ≤ b.size_ → (at_position b i).le (at_position b i) = .ok false) ∧
    (∀ i j, i ≤ b.size_ → j ≤ b.size_ →
      (at_position b i).eq (at_position b j) = true →
      (at_position b i).le (at_position b j) = .ok false) := by
  have hle : ∀ x y : iterator α, x.le y = x.lt y := fun _ _ => rfl
  have hc : 0 < b.capacity_ := by have := hwf.2.1; omega
  obtain ⟨f, hf, hb, hlen, hsc, hlive⟩ := wf_pos b hwf hc
  generalize b.size_ = s at *
  generalize b.capacity_ = c at *
  generalize b.mem = mem at *
  subst hb
  simp only [at_position_ring]
  refine ⟨hle, le_of_eq,
    fun i j hi hj => by rw [hle]; exact lt_ring s c f i j mem hf hsc hi hj,
    fun i hi => by rw [hle, lt_ring s c f i i mem hf hsc hi hi]; simp,
    fun i j hi hj heq => ?_⟩
  rw [hle, lt_ring s c f i j mem hf hsc hi hj]
  simp only [iterator.eq, decide_eq_true_eq] at heq
  have := (pos_ptr_eq_iff s c f i j hsc hi hj).mp heq
  subst this
  simp

/-- C17 at the full buffer `[2,3,4]` of capacity 3: `begin() <= begin()` and
`end() <= end()` are false. -/
theorem le_is_lt_witness :
    wf (ring 3 3 1 [some 4, some 2, some 3]) ∧
    (ring 3 3 1 [some 4, some 2, some 3]).begin.le
      (ring 3 3 1 [some 4, some 2, some 3]).begin = .ok false ∧
    (ring 3 3 1 [some 4, some 2, some 3]).end_iter.le
      (ring 3 3 1 [some 4, some 2, some 3]).end_iter = .ok false ∧
    (∀ i, i ≤ 3 → (at_position (ring 3 3 1 [some 4, some 2, some 3]) i).le
      (at_position (ring 3 3 1 [some 4, some 2, some 3]) i) = .ok false) :=
  have hwf : wf (ring 3 3 1 [some 4, some 2, some 3]) :=
    wf_ring_of_contents 3 3 1 _ [2, 3, 4] (by decide) (by decide) rfl rfl
  have h := le_is_lt (ring 3 3 1 [some 4, some 2, some 3]) hwf (by decide)
  ⟨hwf, rfl, rfl, h.2.2.2.1⟩

end circular_buffer
namespace circular_buffer
open circular_buffer_details
variable {α : Type}

/-! ## Invariants along sequences of calls -/

theorem apply_call_wf (b : circular_buffer α) (k : call α) (hwf : wf b)
    (hk : call_allowed b k = true) :
    ∃ b1, apply_call b k = .ok b1 ∧ wf b1 ∧ b1.capacity_ = b.capacity_ := by
  obtain ⟨xs, hxs⟩ := wf_contents b hwf
  cases k with
  | push_back x =>
    rcases Nat.eq_zero_or_pos b.capacity_ with hc | hc
    · refine ⟨b, ?_, hwf, rfl⟩
      show push_back b x = .ok b
      unfold push_back; rw [if_pos hc]; rfl
    · obtain ⟨b1, h1, h2, h3, -⟩ := push_back_contents b x xs hwf hxs hc
      exact ⟨b1, h1, h2, h3⟩
  | push_front x =>
    rcases Nat.eq_zero_or_pos b.capacity_ with hc | hc
    · refine ⟨b, ?_, hwf, rfl⟩
      show push_front b x = .ok b
      unfold push_front; rw [if_pos hc]; rfl
    · rcases Nat.lt_or_ge b.size_ b.capacity_ with hs | hs
      · obtain ⟨b1, h1, -, -, h3, h4⟩ := push_front_contents_lt b x xs hwf hxs hs
        exact ⟨b1, h1, h4, h3⟩
      · obtain ⟨b1, h1, -, -, h3, h4⟩ :=
          push_front_contents_full b x xs hwf hxs hc (Nat.le_antisymm hwf.2.1 hs)
        exact ⟨b1, h1, h4, h3⟩
  | pop_back =>
    have hs : b.size_ ≠ 0 := by simpa [call_allowed] using hk
    obtain ⟨b1, h1, -, -, h3, h4⟩ := pop_back_contents b xs hwf hxs hs
    exact ⟨b1, h1, h4, h3⟩
  | pop_front =>
    have hs : b.size_ ≠ 0 := by simpa [call_allowed] using hk
    obtain ⟨b1, h1, -, -, h3, h4⟩ := pop_front_contents b xs hwf hxs hs
    exact ⟨b1, h1, h4, h3⟩

theorem run_calls_wf (ks : List (call α)) :
    ∀ b : circular_buffer α, wf b → calls_allowed b ks = true →
      ∃ b1, run_calls b ks = .ok b1 ∧ wf b1 ∧ b1.capacity_ = b.capacity_ := by
  induction ks with
  | nil => intro b hwf _; exact ⟨b, rfl, hwf, rfl⟩
  | cons k ks ih =>
    intro b hwf hk
    simp only [calls_allowed, Bool.and_eq_true] at hk
    obtain ⟨b1, h1, hwf1, hcap1⟩ := apply_call_wf b k hwf hk.1
    have hk2 := hk.2
    rw [h1] at hk2
    obtain ⟨b2, h2, hwf2, hcap2⟩ := ih b1 hwf1 hk2
    refine ⟨b2, ?_, hwf2, by omega⟩
    simp only [run_calls, h1]
    exact h2

theorem wf_first_eq_last_iff (b : circular_buffer α) (hwf : wf b) :
    b.first_ = b.last_ ↔ (b.size_ = 0 ∨ b.size_ = b.capacity_) := by
  rcases Nat.eq_zero_or_pos b.capacity_ with hc | hc
  · have hb := wf_zero b hwf hc
    rw [hb]
    simp
  · obtain ⟨f, hf, hb, hlen, hsc, -⟩ := wf_pos b hwf hc
    generalize b.size_ = s at *
    generalize b.capacity_ = c at *
    generalize b.mem = mem at *
    subst hb
    simp only [ring, Option.some.injEq, Nat.cast_inj]
    constructor
    · intro h
      by_cases hs : s = c
      · exact Or.inr hs
      · left
        have h2 : (f + 0) % c = (f + s) % c := by
          rw [Nat.add_zero, Nat.mod_eq_of_lt hf]; exact h
        exact (slot_inj hc (by omega) h2).symm
    · rintro (h | h)
      · subst h; rw [Nat.add_zero, Nat.mod_eq_of_lt hf]
      · subst h; rw [Nat.add_mod_right, Nat.mod_eq_of_lt hf]

/-- C14: starting from `create(c)`, after every sequence of `push_back`,
`push_front`, `pop_back` and `pop_front` calls in which every pop meets
`size != 0`, the calls all succeed, `0 <= size <= capacity` holds and the
capacity is still `c`. -/
theorem size_bound_invariant (c : Nat) (ks : List (call α)) (b0 : circular_buffer α)
    (h0 : create c = .ok b0) (hk : calls_allowed b0 ks = true) :
    ∃ b, run_calls b0 ks = .ok b ∧ 0 ≤ b.size_ ∧ b.size_ ≤ b.capacity_ ∧
      b.capacity_ = c := by
  obtain ⟨b0', h0', hwf0, -, hcap0, -⟩ := wf_create (α := α) c
  rw [h0] at h0'
  have := Except.ok.inj h0'
  subst this
  obtain ⟨b, h1, hwf1, hcap1⟩ := run_calls_wf ks b0 hwf0 hk
  exact ⟨b, h1, Nat.zero_le _, hwf1.2.1, by omega⟩

/-- C14 from `create(2)` through pushes past the capacity and pops down to
the empty buffer. -/
theorem size_bound_invariant_witness :
    create 2 = .ok (ring 0 2 0 [none, none] : circular_buffer Nat) ∧
    calls_allowed (ring 0 2 0 [none, none] : circular_buffer Nat)
      [.push_back 1, .push_front 2, .push_back 3, .pop_front, .pop_back] = true ∧
    ∃ b, run_calls (ring 0 2 0 [none, none] : circular_buffer Nat)
        [.push_back 1, .push_front 2, .push_back 3, .pop_front, .pop_back] = .ok b ∧
      0 ≤ b.size_ ∧ b.size_ ≤ b.capacity_ ∧ b.capacity_ = 2 :=
  ⟨rfl, rfl, size_bound_invariant 2 _ _ rfl rfl⟩

/-- C15 as stated fails: after `create(1)` and `push_back(7)` the buffer is
full, `size` is 1 and still `first_ == last_`. -/
theorem empty_iff_cursors_coincide_fails :
    ∃ b0 b : circular_buffer Nat, create 1 = .ok b0 ∧
      calls_allowed b0 [.push_back 7] = true ∧ run_calls b0 [.push_back 7] = .ok b ∧
      b.size_ = 1 ∧ b.first_ = b.last_ ∧
      decide (b.size_ = 0) ≠ decide (b.first_ = b.last_) :=
  ⟨_, _, rfl, rfl, rfl, rfl, rfl, by decide⟩

/-- C15 amended: starting from `create(c)`, after every sequence of calls in
which every pop meets `size != 0`, `first_ == last_` holds exactly when
`size == 0` or `size == capacity`; in particular an empty buffer has
`first_ == last_`. -/
theorem cursors_coincide_iff_empty_or_full (c : Nat) (ks : List (call α))
    (b0 : circular_buffer α) (h0 : create c = .ok b0) (hk : calls_allowed b0 ks = true) :
    ∃ b, run_calls b0 ks = .ok b ∧
      (b.first_ = b.last_ ↔ (b.size_ = 0 ∨ b.size_ = b.capacity_)) ∧
      (b.size_ = 0 → b.first_ = b.last_) := by
  obtain ⟨b0', h0', hwf0, -, hcap0, -⟩ := wf_create (α := α) c
  rw [h0] at h0'
  have := Except.ok.inj h0'
  subst this
  obtain ⟨b, h1, hwf1, -⟩ := run_calls_wf ks b0 hwf0 hk
  have h := wf_first_eq_last_iff b hwf1
  exact ⟨b, h1, h, fun hs => h.mpr (Or.inl hs)⟩

/-- C15 amended, from `create(2)`: after one push the cursors differ, after
two the buffer is full and they coincide. -/
theorem cursors_coincide_iff_empty_or_full_witness :
    create 2 = .ok (ring 0 2 0 [none, none] : circular_buffer Nat) ∧
    calls_allowed (ring 0 2 0 [none, none] : circular_buffer Nat)
      [.push_back 1, .push_back 2] = true ∧
    ∃ b, run_calls (ring 0 2 0 [none, none] : circular_buffer Nat)
        [.push_back 1, .push_back 2] = .ok b ∧
      (b.first_ = b.last_ ↔ (b.size_ = 0 ∨ b.size_ = b.capacity_)) ∧
      (b.size_ = 0 → b.first_ = b.last_) :=
  ⟨rfl, rfl, cursors_coincide_iff_empty_or_full 2 _ _ rfl rfl⟩

/-- C18: starting from `create(c)` with `c > 0`, after every sequence of
calls in which every pop meets `size != 0`, `first_` and `last_` are slots
`f`, `l` of the region with `f, l < capacity` and
`l = (f + size) mod capacity`; hence `first_ == last_` exactly when
`size == 0` or `size == capacity`. -/
theorem circular_window_invariant (c : Nat) (ks : List (call α)) (b0 : circular_buffer α)
    (hc : 0 < c) (h0 : create c = .ok b0) (hk : calls_allowed b0 ks = true) :
    ∃ (b : circular_buffer α) (f l : Nat), run_calls b0 ks = .ok b ∧ b.capacity_ = c ∧
      b.buffer_ = some 0 ∧ b.first_ = some (f : Int) ∧ b.last_ = some (l : Int) ∧
      f < c ∧ l < c ∧ l = (f + b.size_) % c ∧
      (b.first_ = b.last_ ↔ (b.size_ = 0 ∨ b.size_ = b.capacity_)) := by
  obtain ⟨b0', h0', hwf0, -, hcap0, -⟩ := wf_create (α := α) c
  rw [h0] at h0'
  have := Except.ok.inj h0'
  subst this
  obtain ⟨b, h1, hwf1, hcap1⟩ := run_calls_wf ks b0 hwf0 hk
  have hcap : b.capacity_ = c := by omega
  have hiff := wf_first_eq_last_iff b hwf1
  obtain ⟨hb, -, f, hf, hfi, hla, -⟩ := hwf1.2.2.2 (by omega)
  rw [hcap] at hf hla
  exact ⟨b, f, (f + b.size_) % c, h1, hcap, hb, hfi, hla, hf, Nat.mod_lt _ hc, rfl, hiff⟩

/-- C18 from `create(3)`: after `push_front`, three `push_back` and a
`pop_front` the window is wrapped. -/
theorem circular_window_invariant_witness :
    0 < 3 ∧ create 3 = .ok (ring 0 3 0 [none, none, none] : circular_buffer Nat) ∧
    calls_allowed (ring 0 3 0 [none, none, none] : circular_buffer Nat)
      [.push_front 1, .push_back 2, .push_back 3, .push_back 4, .pop_front] = true ∧
    ∃ (b : circular_buffer Nat) (f l : Nat),
      run_calls (ring 0 3 0 [none, none, none] : circular_buffer Nat)
        [.push_front 1, .push_back 2, .push_back 3, .push_back 4, .pop_front] = .ok b ∧
      b.capacity_ = 3 ∧ b.buffer_ = some 0 ∧ b.first_ = some (f : Int) ∧
      b.last_ = some (l : Int) ∧ f < 3 ∧ l < 3 ∧ l = (f + b.size_) % 3 ∧
      (b.first_ = b.last_ ↔ (b.size_ = 0 ∨ b.size_ = b.capacity_)) :=
  ⟨by decide, rfl, rfl, circular_window_invariant 3 _ _ (by decide) rfl rfl⟩

end circular_buffer
